import Mathlib

/-!
Verification of the sstable on-disk codec (sstables/sstables.cc, sstables/types.hh).

A shallow embedding: files are lists of bytes (naturals reduced mod 256 at the
decoding boundary), the `random_access_reader` is a file together with a current
position, and every `parse` function of the source becomes a Lean function from a
reader to `Except`.  Errors carry the reader state at the point of failure, which
mirrors the mutated stream the C++ exception handlers observe.  Writers are pure
functions from values to the list of bytes appended to the output stream.

Doubles are represented by their IEEE-754 bit pattern as a natural number below
2^64: the source transports them bit-for-bit through a u64 channel (the `convert`
union), so parse and write only ever touch the bits.
-/

set_option autoImplicit false

/-- The `random_access_reader` of sstables.cc: an input stream over a file,
positioned at `pos`.  `seek` re-anchors the stream at an absolute position. -/
structure Reader where
  file : List Nat
  pos : Nat
  deriving DecidableEq, Repr

/-- `input_stream::read_exactly(n)`: yields the next `n` bytes, or fewer when the
file ends first; the stream position advances past what was read. -/
def readExactly (r : Reader) (n : Nat) : List Nat × Reader :=
  (((r.file.drop r.pos).take n), ⟨r.file, min (r.pos + n) r.file.length⟩)

/-- `random_access_reader::eof`: the underlying stream has reached the file end. -/
def Reader.eof (r : Reader) : Bool := r.file.length ≤ r.pos

/-- `random_access_reader::seek(pos)`: reopen the stream at absolute position `pos`. -/
def Reader.seek (r : Reader) (p : Nat) : Reader := ⟨r.file, p⟩

/-- Error kinds of the codec (§7 of the spec): `underfullBuffer` is
`bufsize_mismatch_exception`, `overflow` is `std::overflow_error` from
`check_truncate_and_assign`, `malformed` is `malformed_sstable_exception`, and
`systemError` stands for an OS error that is not translated by the codec. -/
inductive Err where
  | underfullBuffer (got expected : Nat)
  | overflow
  | malformed (msg : String)
  | outOfRange
  | systemError
  deriving DecidableEq, Repr

/-- `check_buf_size` (sstables.cc line 124): reject a buffer strictly smaller
than the expected size. -/
def checkBufSize (buf : List Nat) (expected : Nat) : Except Err Unit :=
  if buf.length < expected then .error (.underfullBuffer buf.length expected) else .ok ()

/-- `check_truncate_and_assign` (line 130): assigning a value into a `w`-byte
unsigned destination fails when the value is `≥` the destination's maximum
(`2^(8w) - 1`); the bound is inclusive. -/
def check_truncate_and_assign (w : Nat) (x : Nat) : Except Err Nat :=
  if 2 ^ (8 * w) - 1 ≤ x then .error .overflow else .ok x

/-- `read_integer` (line 140): big-endian (`ntoh`) decode of the first `w` bytes
of a buffer. -/
def readInteger (buf : List Nat) (w : Nat) : Nat :=
  (buf.take w).foldl (fun acc b => acc * 256 + b % 256) 0

/-- Big-endian encoding of `x` on `w` bytes (`hton` plus the raw byte write);
the value is implicitly reduced mod `2^(8w)`, as the C++ fixed-width type does. -/
def beEncode : Nat → Nat → List Nat
  | 0, _ => []
  | w + 1, x => beEncode w (x / 256) ++ [x % 256]

/-- Native (little-endian, per §8.6 of the spec) decode of a byte group, as done
by the `reinterpret_cast` over the summary `positions` buffer. -/
def leDecode (buf : List Nat) : Nat :=
  buf.foldr (fun b acc => acc * 256 + b % 256) 0

/-- Specification-style big-endian value of a byte list: the head byte is the
most significant.  Used to state endianness properties independently of the
`foldl` shape of `readInteger`. -/
def beValue : List Nat → Nat
  | [] => 0
  | b :: bs => (b % 256) * 256 ^ bs.length + beValue bs

/-- Result of a parser: either a value with the advanced reader, or an error
with the reader state at the failure point. -/
abbrev PResult (α : Type) := Except (Err × Reader) (α × Reader)

/-- `parse` for an integral type of width `w` bytes (line 147): read exactly
`w` bytes, check the buffer size, big-endian decode. -/
def parseInt (w : Nat) (r : Reader) : PResult Nat :=
  let (buf, r') := readExactly r w
  match checkBufSize buf w with
  | .error e => .error (e, r')
  | .ok _ => .ok (readInteger buf w, r')

/-- `write` for an integral type of width `w` bytes (line 158): `hton` then the
raw byte write. -/
def writeInt (w : Nat) (x : Nat) : List Nat := beEncode w x

/-- `parse` for an enum (line 170): delegates to the integer parser of the
declared underlying type's width. -/
def parseEnum (w : Nat) (r : Reader) : PResult Nat := parseInt w r

/-- `write` for an enum (line 176): casts to the underlying integer and writes it. -/
def writeEnum (w : Nat) (x : Nat) : List Nat := writeInt w x

/-- `parse` for `bool` (line 182): one byte, reinterpreted. -/
def parseBool (r : Reader) : PResult Bool :=
  match parseInt 1 r with
  | .error e => .error e
  | .ok (v, r') => .ok (v != 0, r')

/-- `write` for `bool` (line 186): a single byte `0`/`1`. -/
def writeBool (b : Bool) : List Nat := beEncode 1 (if b then 1 else 0)

/-- `parse` for `double` (line 202): 8 bytes big-endian through the u64 channel;
the result is the IEEE-754 bit pattern. -/
def parseDouble (r : Reader) : PResult Nat :=
  let (buf, r') := readExactly r 8
  match checkBufSize buf 8 with
  | .error e => .error (e, r')
  | .ok _ => .ok (readInteger buf 8, r')

/-- `write` for `double` (line 212): the big-endian bytes of the bit pattern. -/
def writeDouble (bits : Nat) : List Nat := beEncode 8 bits

/-- `parse(in, len, s)` for a sized string body (line 222) combined with its
length prefix of width `w` (line 274, `disk_string<Size>`). -/
def parseDiskString (w : Nat) (r : Reader) : PResult (List Nat) :=
  match parseInt w r with
  | .error e => .error e
  | .ok (len, r₁) =>
    let (buf, r₂) := readExactly r₁ len
    match checkBufSize buf len with
    | .error e => .error (e, r₂)
    | .ok _ => .ok (buf, r₂)

/-- `write` for `disk_string<Size>` (line 283): width-checked length prefix,
then the raw bytes. -/
def writeDiskString (w : Nat) (s : List Nat) : Except Err (List Nat) :=
  match check_truncate_and_assign w s.length with
  | .error e => .error e
  | .ok len => .ok (beEncode w len ++ s)

/-- Integral-member array body (line 312): one contiguous read of `len * mw`
bytes, each element big-endian normalized in place. -/
def parseArrayInts (mw len : Nat) (r : Reader) : PResult (List Nat) :=
  let (buf, r') := readExactly r (len * mw)
  match checkBufSize buf (len * mw) with
  | .error e => .error (e, r')
  | .ok _ => .ok ((List.range len).map (fun i => readInteger (buf.drop (mw * i)) mw), r')

/-- Non-integral-member array body (line 300): parse the members one by one, in
order. -/
def parseArrayElems {α : Type} (pe : Reader → PResult α) : Nat → Reader → PResult (List α)
  | 0, r => .ok ([], r)
  | n + 1, r =>
    match pe r with
    | .error e => .error e
    | .ok (x, r₁) =>
      match parseArrayElems pe n r₁ with
      | .error e => .error e
      | .ok (xs, r₂) => .ok (x :: xs, r₂)

/-- `parse` for `disk_array<Size, Members>` with integral members (line 328):
length prefix of width `w`, then the bulk body. -/
def parseDiskArrayInts (w mw : Nat) (r : Reader) : PResult (List Nat) :=
  match parseInt w r with
  | .error e => .error e
  | .ok (len, r₁) => parseArrayInts mw len r₁

/-- `parse` for `disk_array<Size, Members>` with non-integral members (line 328):
length prefix of width `w`, then element-by-element parsing. -/
def parseDiskArrayWith {α : Type} (w : Nat) (pe : Reader → PResult α) (r : Reader) : PResult (List α) :=
  match parseInt w r with
  | .error e => .error e
  | .ok (len, r₁) => parseArrayElems pe len r₁

/-- Integral-member vector body writer (line 351): each element `hton`-converted
and written contiguously. -/
def writeVecInts (mw : Nat) (elems : List Nat) : List Nat :=
  elems.flatMap (beEncode mw)

/-- The element loop of the vector writer (line 339): encode the members left
to right, concatenating their bytes; the first failure propagates. -/
def writeElems {α : Type} (we : α → Except Err (List Nat)) : List α → Except Err (List Nat)
  | [] => .ok []
  | e :: tl =>
    match we e with
    | .error err => .error err
    | .ok b =>
      match writeElems we tl with
      | .error err => .error err
      | .ok rest => .ok (b ++ rest)

/-- `write` for `disk_array<Size, Members>` (line 368): width-checked element
count, then the member encodings produced by `we` in order. -/
def writeDiskArrayWith {α : Type} (w : Nat) (we : α → Except Err (List Nat))
    (elems : List α) : Except Err (List Nat) :=
  match check_truncate_and_assign w elems.length with
  | .error e => .error e
  | .ok len =>
    match writeElems we elems with
    | .error e => .error e
    | .ok payload => .ok (beEncode w len ++ payload)

/-- `write` for `disk_array` with integral members (lines 351 and 368). -/
def writeDiskArrayInts (w mw : Nat) (elems : List Nat) : Except Err (List Nat) :=
  writeDiskArrayWith w (fun x => .ok (beEncode mw x)) elems

/-- `std::unordered_map::emplace` (line 391): insert only when the key is not
already present — an existing binding is NOT overwritten. -/
def emplace {κ ν : Type} [DecidableEq κ] (m : List (κ × ν)) (k : κ) (v : ν) : List (κ × ν) :=
  if m.any (fun p => p.1 = k) then m else m ++ [(k, v)]

/-- Map body parser (line 377): `n` pairs, each parsing the key then the value,
inserted with `emplace`. -/
def parseMapEntries {κ ν : Type} [DecidableEq κ] (pk : Reader → PResult κ) (pv : Reader → PResult ν) :
    Nat → List (κ × ν) → Reader → PResult (List (κ × ν))
  | 0, m, r => .ok (m, r)
  | n + 1, m, r =>
    match pk r with
    | .error e => .error e
    | .ok (k, r₁) =>
      match pv r₁ with
      | .error e => .error e
      | .ok (v, r₂) => parseMapEntries pk pv n (emplace m k v) r₂

/-- `parse` for `disk_hash<Size, Key, Value>` (line 396): length prefix of width
`sw`, then the map body. -/
def parseDiskHashWith {κ ν : Type} [DecidableEq κ] (sw : Nat)
    (pk : Reader → PResult κ) (pv : Reader → PResult ν) (r : Reader) : PResult (List (κ × ν)) :=
  match parseInt sw r with
  | .error e => .error e
  | .ok (len, r₁) => parseMapEntries pk pv len [] r₁

/-- `disk_hash` with integer key and value widths `kw`, `vw` (e.g. the
statistics tag→offset map `disk_hash<u32, metadata_type, u32>`). -/
def parseDiskHashInts (sw kw vw : Nat) (r : Reader) : PResult (List (Nat × Nat)) :=
  parseDiskHashWith sw (parseInt kw) (parseInt vw) r

/-- Modelled from the spec: no writer for `disk_hash` exists under src/ (only
the parser, lines 377-403); §6.3 of the spec makes writing symmetric — a
width-checked count prefix followed by the pairs, each key then value. -/
def writeDiskHashInts (sw kw vw : Nat) (m : List (Nat × Nat)) : Except Err (List Nat) :=
  match check_truncate_and_assign sw m.length with
  | .error e => .error e
  | .ok len => .ok (beEncode sw len ++ m.flatMap (fun p => beEncode kw p.1 ++ beEncode vw p.2))

/-- `option` of types.hh (line 33): two u16-prefixed strings, key then value. -/
structure OptionKV where
  key : List Nat
  value : List Nat
  deriving DecidableEq, Repr, Inhabited

/-- `parse` for `option`, through its `describe_type` field list `(key, value)`. -/
def parseOptionKV (r : Reader) : PResult OptionKV :=
  match parseDiskString 2 r with
  | .error e => .error e
  | .ok (k, r₁) =>
    match parseDiskString 2 r₁ with
    | .error e => .error e
    | .ok (v, r₂) => .ok (⟨k, v⟩, r₂)

/-- `write` for `option`, same field list. -/
def writeOptionKV (o : OptionKV) : Except Err (List Nat) :=
  match writeDiskString 2 o.key with
  | .error e => .error e
  | .ok bk =>
    match writeDiskString 2 o.value with
    | .error e => .error e
    | .ok bv => .ok (bk ++ bv)

/-- `filter` of types.hh (line 41): `hashes: u32`, `buckets: disk_array<u32, u64>`
(named `SSTFilter` here because `Filter` is taken by the ambient library). -/
structure SSTFilter where
  hashes : Nat
  buckets : List Nat
  deriving DecidableEq, Repr, Inhabited

/-- `parse` for `filter`, through its `describe_type` field list. -/
def parseFilter (r : Reader) : PResult SSTFilter :=
  match parseInt 4 r with
  | .error e => .error e
  | .ok (h, r₁) =>
    match parseDiskArrayInts 4 8 r₁ with
    | .error e => .error e
    | .ok (b, r₂) => .ok (⟨h, b⟩, r₂)

/-- `write` for `filter`, same field list. -/
def writeFilter (f : SSTFilter) : Except Err (List Nat) :=
  match writeDiskArrayInts 4 8 f.buckets with
  | .error e => .error e
  | .ok bb => .ok (writeInt 4 f.hashes ++ bb)

/-- `index_entry` of types.hh (line 49). -/
structure IndexEntry where
  key : List Nat
  position : Nat
  promoted_index : List Nat
  deriving DecidableEq, Repr, Inhabited

/-- `parse` for `index_entry` (sstables.cc line 497): key, position,
promoted_index in order. -/
def parseIndexEntry (r : Reader) : PResult IndexEntry :=
  match parseDiskString 2 r with
  | .error e => .error e
  | .ok (k, r₁) =>
    match parseInt 8 r₁ with
    | .error e => .error e
    | .ok (p, r₂) =>
      match parseDiskString 4 r₂ with
      | .error e => .error e
      | .ok (pi, r₃) => .ok (⟨k, p, pi⟩, r₃)

/-- `replay_position` of types.hh (line 101). -/
structure ReplayPosition where
  segment : Nat
  position : Nat
  deriving DecidableEq, Repr, Inhabited

/-- `parse` for `replay_position` (sstables.cc line 473): segment then position. -/
def parseReplayPosition (r : Reader) : PResult ReplayPosition :=
  match parseInt 8 r with
  | .error e => .error e
  | .ok (s, r₁) =>
    match parseInt 4 r₁ with
    | .error e => .error e
    | .ok (p, r₂) => .ok (⟨s, p⟩, r₂)

/-- `estimated_histogram::eh_elem` of types.hh (line 93). -/
structure EhElem where
  offset : Nat
  bucket : Nat
  deriving DecidableEq, Repr, Inhabited

/-- `parse` for `eh_elem` (sstables.cc line 477): offset then bucket, u64 each. -/
def parseEhElem (r : Reader) : PResult EhElem :=
  match parseInt 8 r with
  | .error e => .error e
  | .ok (o, r₁) =>
    match parseInt 8 r₁ with
    | .error e => .error e
    | .ok (b, r₂) => .ok (⟨o, b⟩, r₂)

/-- `parse` for `estimated_histogram` (line 481): a `disk_array<u32, eh_elem>`. -/
def parseEstimatedHistogram (r : Reader) : PResult (List EhElem) :=
  parseDiskArrayWith 4 parseEhElem r

/-- `streaming_histogram` of types.hh (line 106): `max_bin_size: u32` and a
`disk_hash<u32, double, u64>` (keys are double bit patterns). -/
structure StreamingHistogram where
  max_bin_size : Nat
  hash : List (Nat × Nat)
  deriving DecidableEq, Repr, Inhabited

/-- `parse` for `streaming_histogram` (line 485). -/
def parseStreamingHistogram (r : Reader) : PResult StreamingHistogram :=
  match parseInt 4 r with
  | .error e => .error e
  | .ok (m, r₁) =>
    match parseDiskHashWith 4 parseDouble (parseInt 8) r₁ with
    | .error e => .error e
    | .ok (h, r₂) => .ok (⟨m, h⟩, r₂)

/-- `deletion_time` of types.hh (line 167). -/
structure DeletionTime where
  local_deletion_time : Nat
  marked_for_delete_at : Nat
  deriving DecidableEq, Repr, Inhabited

/-- `parse` for `deletion_time` (sstables.cc line 501). -/
def parseDeletionTime (r : Reader) : PResult DeletionTime :=
  match parseInt 4 r with
  | .error e => .error e
  | .ok (l, r₁) =>
    match parseInt 8 r₁ with
    | .error e => .error e
    | .ok (m, r₂) => .ok (⟨l, m⟩, r₂)

/-- `validation_metadata` of types.hh (line 114). -/
structure ValidationMetadata where
  partitioner : List Nat
  filter_chance : Nat
  deriving DecidableEq, Repr, Inhabited

/-- `parse` for `validation_metadata` (sstables.cc line 489). -/
def parseValidationMetadata (r : Reader) : PResult ValidationMetadata :=
  match parseDiskString 2 r with
  | .error e => .error e
  | .ok (p, r₁) =>
    match parseDouble r₁ with
    | .error e => .error e
    | .ok (f, r₂) => .ok (⟨p, f⟩, r₂)

/-- `compaction_metadata` of types.hh (line 119). -/
structure CompactionMetadata where
  ancestors : List Nat
  cardinality : List Nat
  deriving DecidableEq, Repr, Inhabited

/-- `parse` for `compaction_metadata` (sstables.cc line 493). -/
def parseCompactionMetadata (r : Reader) : PResult CompactionMetadata :=
  match parseDiskArrayInts 4 4 r with
  | .error e => .error e
  | .ok (a, r₁) =>
    match parseDiskArrayInts 4 1 r₁ with
    | .error e => .error e
    | .ok (c, r₂) => .ok (⟨a, c⟩, r₂)

/-- `la_stats_metadata` of types.hh (line 124): the ordered field list of
sstables.cc line 511.  `compression_ratio_bits` holds the f64 bit pattern. -/
structure StatsMetadata where
  estimated_row_size : List EhElem
  estimated_column_count : List EhElem
  position : ReplayPosition
  min_timestamp : Nat
  max_timestamp : Nat
  max_local_deletion_time : Nat
  compression_ratio_bits : Nat
  estimated_tombstone_drop_time : StreamingHistogram
  sstable_level : Nat
  repaired_at : Nat
  min_column_names : List (List Nat)
  max_column_names : List (List Nat)
  has_legacy_counter_shards : Bool
  deriving DecidableEq, Repr, Inhabited

/-- `parse` for `stats_metadata` (sstables.cc line 511), visiting the fields in
declaration order. -/
def parseStatsMetadata (r : Reader) : PResult StatsMetadata :=
  match parseEstimatedHistogram r with
  | .error e => .error e
  | .ok (ers, r) =>
  match parseEstimatedHistogram r with
  | .error e => .error e
  | .ok (ecc, r) =>
  match parseReplayPosition r with
  | .error e => .error e
  | .ok (pos, r) =>
  match parseInt 8 r with
  | .error e => .error e
  | .ok (mint, r) =>
  match parseInt 8 r with
  | .error e => .error e
  | .ok (maxt, r) =>
  match parseInt 4 r with
  | .error e => .error e
  | .ok (mldt, r) =>
  match parseDouble r with
  | .error e => .error e
  | .ok (cr, r) =>
  match parseStreamingHistogram r with
  | .error e => .error e
  | .ok (etdt, r) =>
  match parseInt 4 r with
  | .error e => .error e
  | .ok (lvl, r) =>
  match parseInt 8 r with
  | .error e => .error e
  | .ok (rep, r) =>
  match parseDiskArrayWith 4 (parseDiskString 2) r with
  | .error e => .error e
  | .ok (minc, r) =>
  match parseDiskArrayWith 4 (parseDiskString 2) r with
  | .error e => .error e
  | .ok (maxc, r) =>
  match parseBool r with
  | .error e => .error e
  | .ok (legacy, r) =>
    .ok (⟨ers, ecc, pos, mint, maxt, mldt, cr, etdt, lvl, rep, minc, maxc, legacy⟩, r)

/-- The heterogeneous statistics body, keyed by `metadata_type` (types.hh line
145): tag 0 validation, tag 1 compaction, tag 2 stats. -/
inductive MetadataBody where
  | validation (v : ValidationMetadata)
  | compaction (c : CompactionMetadata)
  | stats (m : StatsMetadata)
  deriving DecidableEq, Repr

/-- `statistics` of types.hh (line 162): the tag→offset map and the parsed
contents map (both association lists here; tags are the u32 underlying values). -/
structure Statistics where
  hash : List (Nat × Nat)
  contents : List (Nat × MetadataBody)
  deriving DecidableEq, Repr

/-- `std::unordered_map::operator[]` followed by `reset` (line 506): store a
binding, overwriting an existing one for the same key. -/
def contentsStore (m : List (Nat × MetadataBody)) (k : Nat) (v : MetadataBody) :
    List (Nat × MetadataBody) :=
  match m with
  | [] => [(k, v)]
  | (k', v') :: rest => if k' = k then (k, v) :: rest else (k', v') :: contentsStore rest k v

/-- The per-entry loop of `parse(random_access_reader&, statistics&)` (line 531):
seek to the recorded offset and parse the body selected by the tag; an unknown
tag is logged at warn level (collected in the returned list) and skipped. -/
def statsDispatch (file : List Nat) :
    List (Nat × Nat) → List (Nat × MetadataBody) → List Nat →
    Except (Err × Reader) (List (Nat × MetadataBody) × List Nat)
  | [], cont, log => .ok (cont, log)
  | (tag, off) :: rest, cont, log =>
    let rd : Reader := ⟨file, off⟩
    if tag = 0 then
      match parseValidationMetadata rd with
      | .error e => .error e
      | .ok (v, _) => statsDispatch file rest (contentsStore cont tag (.validation v)) log
    else if tag = 1 then
      match parseCompactionMetadata rd with
      | .error e => .error e
      | .ok (c, _) => statsDispatch file rest (contentsStore cont tag (.compaction c)) log
    else if tag = 2 then
      match parseStatsMetadata rd with
      | .error e => .error e
      | .ok (m, _) => statsDispatch file rest (contentsStore cont tag (.stats m)) log
    else
      statsDispatch file rest cont (log ++ [tag])

/-- `parse(random_access_reader&, statistics&)` (line 529): the tag→offset map,
then the dispatch loop.  Returns the statistics and the warn-logged tags. -/
def parseStatistics (r : Reader) : Except (Err × Reader) (Statistics × List Nat) :=
  match parseDiskHashInts 4 4 4 r with
  | .error e => .error e
  | .ok (h, r₁) =>
    match statsDispatch r₁.file h [] [] with
    | .error e => .error e
    | .ok (cont, log) => .ok (⟨h, cont⟩, log)

/-- The `summary_la::header` of types.hh (line 64); on disk it occupies
`sizeof(header) = 24` bytes. -/
structure SummaryHeader where
  min_index_interval : Nat
  size : Nat
  memory_size : Nat
  sampling_level : Nat
  size_at_full_sampling : Nat
  deriving DecidableEq, Repr, Inhabited

/-- A summary entry (types.hh line 55): raw key bytes and a u64 position. -/
structure SummaryEntry where
  key : List Nat
  position : Nat
  deriving DecidableEq, Repr, Inhabited

/-- `summary_la` of types.hh (line 63). -/
structure Summary where
  header : SummaryHeader
  positions : List Nat
  entries : List SummaryEntry
  first_key : List Nat
  last_key : List Nat
  deriving DecidableEq, Repr, Inhabited

/-- Subtraction in `uint32_t` arithmetic, as performed on the summary positions
(`next - pos`, line 443, and `entrysize - 8`, line 448). -/
def sub32 (a b : Nat) : Nat := (a + 2 ^ 32 - b % 2 ^ 32) % 2 ^ 32

/-- The entry loop of the summary parser (lines 439-454): for index `idx`, read
`positions[idx+1] - positions[idx]` bytes (u32 arithmetic); the bytes before the
trailing 8 become the key, the trailing 8 big-endian-decode to the position. -/
def parseSummaryEntries (positions : List Nat) : Nat → Nat → Reader → PResult (List SummaryEntry)
  | _, 0, r => .ok ([], r)
  | idx, n + 1, r =>
    let p := positions.getD idx 0
    let q := positions.getD (idx + 1) 0
    let entrysize := sub32 q p
    let (buf, r₁) := readExactly r entrysize
    match checkBufSize buf entrysize with
    | .error e => .error (e, r₁)
    | .ok _ =>
      let keysize := sub32 entrysize 8
      let key := buf.take keysize
      let position := readInteger (buf.drop keysize) 8
      match parseSummaryEntries positions (idx + 1) n r₁ with
      | .error e => .error e
      | .ok (rest, r₂) => .ok (⟨key, position⟩ :: rest, r₂)

/-- The five scalar header fields of the summary (lines 408-412). -/
def parseSummaryHeaderFields (r : Reader) : PResult SummaryHeader :=
  match parseInt 4 r with
  | .error e => .error e
  | .ok (mii, r) =>
  match parseInt 4 r with
  | .error e => .error e
  | .ok (sz, r) =>
  match parseInt 8 r with
  | .error e => .error e
  | .ok (ms, r) =>
  match parseInt 4 r with
  | .error e => .error e
  | .ok (sl, r) =>
  match parseInt 4 r with
  | .error e => .error e
  | .ok (safs, r) => .ok (⟨mii, sz, ms, sl, safs⟩, r)

/-- `parse(random_access_reader&, summary&)` (line 405) up to, but not
including, the final dropping of the positions table: header, the native-order
positions buffer (with `header.memory_size` pushed onto the `vector<uint32_t>`,
hence truncated mod `2^32`), the first/last keys at `sizeof(header) +
memory_size`, the `positions.size() == entries.size() + 1` assertion, and the
entry loop starting at `positions[0] + sizeof(header)`. -/
def parseSummaryCore (r : Reader) : PResult Summary :=
  match parseSummaryHeaderFields r with
  | .error e => .error e
  | .ok (h, r₁) =>
    let (pbuf, r₂) := readExactly r₁ (h.size * 4)
    match checkBufSize pbuf (h.size * 4) with
    | .error e => .error (e, r₂)
    | .ok _ =>
      let positions :=
        ((List.range h.size).map (fun i => leDecode ((pbuf.drop (4 * i)).take 4))) ++
          [h.memory_size % 2 ^ 32]
      let r₃ := r₂.seek (24 + h.memory_size)
      match parseDiskString 4 r₃ with
      | .error e => .error e
      | .ok (fk, r₄) =>
        match parseDiskString 4 r₄ with
        | .error e => .error e
        | .ok (lk, r₅) =>
          let r₆ := r₅.seek (positions.getD 0 0 + 24)
          if positions.length = h.size + 1 then
            match parseSummaryEntries positions 0 h.size r₆ with
            | .error e => .error e
            | .ok (entries, r₇) =>
              .ok (⟨h, positions, entries, fk, lk⟩, r₇)
          else .error (.malformed "summary positions assertion failed", r₆)

/-- `parse(random_access_reader&, summary&)` (line 405) in full: after the
entries are materialized the positions table is swapped with an empty vector
(line 458). -/
def parseSummary (r : Reader) : PResult Summary :=
  match parseSummaryCore r with
  | .error e => .error e
  | .ok (s, r') => .ok ({ s with positions := [] }, r')

/-- The entry layout the spec describes (§4.5 step 5): entry `i` of the summary
spans bytes `[positions[i], positions[i+1])` of the post-header stream, its
position is the big-endian value of the trailing 8 bytes of that span and its
key is the preceding bytes.  Used to state the refinement claim about the
summary protocol. -/
def specSummaryEntry (file : List Nat) (p q : Nat) : SummaryEntry :=
  let chunk := (file.drop (24 + p)).take (q - p)
  ⟨chunk.take (q - p - 8), readInteger (chunk.drop (q - p - 8)) 8⟩

/-- `sstable::component_type` (the nine recognized companion files). -/
inductive ComponentType where
  | Index
  | CompressionInfo
  | Data
  | TOC
  | Summary
  | Digest
  | CRC
  | Filter
  | Statistics
  deriving DecidableEq, Repr

/-- `sstable::_component_map` (sstables.cc line 86), in its initializer order;
file contents are modelled as character lists, so the suffixes are too. -/
def componentMap : List (ComponentType × List Char) :=
  [(.Index, "Index.db".data),
   (.CompressionInfo, "CompressionInfo.db".data),
   (.Data, "Data.db".data),
   (.TOC, "TOC.txt".data),
   (.Summary, "Summary.db".data),
   (.Digest, "Digest.sha1".data),
   (.CRC, "CRC.db".data),
   (.Filter, "Filter.db".data),
   (.Statistics, "Statistics.db".data)]

/-- `reverse_map` (line 101): the first key of the map whose value equals `v`,
or failure. -/
def reverseMapToc (v : List Char) : Option ComponentType :=
  (componentMap.find? (fun p => p.2 = v)).map (fun p => p.1)

/-- `std::set::insert` on the component set: add the component if absent. -/
def insertComponent (l : List ComponentType) (c : ComponentType) : List ComponentType :=
  if c ∈ l then l else l ++ [c]

/-- `boost::split` on a single separator character: every separator starts a
new field, empty fields are kept (an empty input yields one empty field, a
trailing separator a trailing empty field). -/
def splitOn (sep : Char) : List Char → List (List Char)
  | [] => [[]]
  | c :: rest =>
    if c = sep then [] :: splitOn sep rest
    else
      match splitOn sep rest with
      | [] => [[c]]
      | line :: rest2 => (c :: line) :: rest2

/-- The line loop of `sstable::read_toc` (lines 574-584): skip empty lines,
translate each remaining line through the reverse component map, and fail on the
first unrecognized line. -/
def tocFold : List (List Char) → List ComponentType → Except Err (List ComponentType)
  | [], acc => .ok acc
  | c :: rest, acc =>
    if c = [] then tocFold rest acc
    else
      match reverseMapToc c with
      | some comp => tocFold rest (insertComponent acc comp)
      | none => .error (.malformed ("Unrecognized TOC component: " ++ String.mk c))

/-- `sstable::read_toc` (line 551) applied to the file contents (a character
list standing for the file bytes): a whole page (4096 bytes or more) is
malformed, the bytes split on LF, every non-empty line must name a component,
and the effective component set must be non-empty. -/
def readToc (content : List Char) : Except Err (List ComponentType) :=
  if 4096 ≤ content.length then
    .error (.malformed ("SSTable too big: " ++ toString content.length ++ " bytes."))
  else
    match tocFold (splitOn '\n' content) [] with
    | .error e => .error e
    | .ok comps =>
      if comps.length = 0 then .error (.malformed "Empty TOC") else .ok comps

/-- The loop of `sstable::read_indexes` (line 616): parse consecutive entries
until `quantity` of them have been read; on a buffer-size mismatch the
tentatively reserved entry is discarded and, when the stream is at end-of-file,
the enumeration ends normally with the entries read so far; any other failure
(or a mismatch away from end-of-file) propagates. -/
def readIndexesAux : Nat → Reader → List IndexEntry → Except (Err × Reader) (List IndexEntry)
  | 0, _, acc => .ok acc
  | n + 1, r, acc =>
    match parseIndexEntry r with
    | .ok (e, r') => readIndexesAux n r' (acc ++ [e])
    | .error (.underfullBuffer got expected, r') =>
      if r'.eof then .ok acc else .error (.underfullBuffer got expected, r')
    | .error e => .error e

/-- `sstable::read_indexes(position, quantity)` (line 602): seek to `position`
in the index file and run the enumeration loop. -/
def readIndexes (file : List Nat) (position quantity : Nat) :
    Except (Err × Reader) (List IndexEntry) :=
  readIndexesAux quantity (Reader.seek ⟨file, 0⟩ position) []

/-- The bytes one `index_entry` occupies in the index file, per its field list
(types.hh line 49 and sstables.cc line 497).  The source has no writer for
index entries; this encoding only describes well-formed index files in theorem
hypotheses. -/
def indexEntryBytes (e : IndexEntry) : List Nat :=
  beEncode 2 e.key.length ++ e.key ++ beEncode 8 e.position ++
    beEncode 4 e.promoted_index.length ++ e.promoted_index

/-- Modelled from the spec: the compression metadata record.  `compress.hh` and
the `compression` parser are not under src/; §6.5 only requires constructing it
from the parsed record and accepting `update(data_file_size)` afterwards, so the
record is kept abstract as its raw bytes plus the post-initialized data file
size. -/
structure Compression where
  raw : List Nat
  dataFileSize : Option Nat
  deriving DecidableEq, Repr, Inhabited

/-- Modelled from the spec: parsing the `CompressionInfo` component; the record
contents are opaque to the load sequence, so the parse consumes the stream. -/
def parseCompression (r : Reader) : PResult Compression :=
  let (buf, r') := readExactly r (r.file.length - r.pos)
  .ok (⟨buf, none⟩, r')

/-- `compression::update(data_file_size)` (invoked at sstables.cc line 748). -/
def Compression.update (c : Compression) (size : Nat) : Compression :=
  { c with dataFileSize := some size }

/-- The on-disk companion files of one table generation, as the load sequence
sees them: `none` means the file is missing (`ENOENT` on open). -/
structure FS where
  toc : Option (List Char)
  stats : Option (List Nat)
  compressionInfo : Option (List Nat)
  filterFile : Option (List Nat)
  summaryFile : Option (List Nat)
  indexFile : Option (List Nat)
  dataFile : Option (List Nat)
  deriving DecidableEq, Repr

/-- The steps of `sstable::load` (line 733), in the order the chain runs them. -/
inductive LoadStep where
  | toc
  | statistics
  | compression
  | filterStep
  | summaryStep
  | openData
  | updateCompression
  deriving DecidableEq, Repr

/-- The loaded table: the state `sstable::load` populates. -/
structure SSTable where
  components : List ComponentType
  statistics : Statistics
  compression : Option Compression
  filter : Option SSTFilter
  summary : Summary
  dataFileSize : Nat
  deriving DecidableEq, Repr

/-- `sstable::read_simple` (line 656) for a component parsed by `p`: a missing
file is reported as `MalformedSSTable` ("file not found"); otherwise the file is
parsed from position 0. -/
def readSimple {α : Type} (p : Reader → PResult α) (bytes : Option (List Nat)) :
    Except Err α :=
  match bytes with
  | none => .error (.malformed "file not found")
  | some f =>
    match p ⟨f, 0⟩ with
    | .error (e, _) => .error e
    | .ok (v, _) => .ok v

/-- `sstable::load` (line 733): TOC, statistics, compression (only when the
`CompressionInfo` component is listed), filter (when listed; `read_filter` is
modelled from the spec, its body is not under src/), summary, opening the index
and data files, and finally handing the data file size to the compression
metadata.  The result carries the trace of completed steps; a failure carries
the error and the steps completed before it. -/
def load (fs : FS) : Except (Err × List LoadStep) (SSTable × List LoadStep) :=
  match (match fs.toc with
         | none => .error (.malformed "file not found")
         | some c => readToc c : Except Err (List ComponentType)) with
  | .error e => .error (e, [])
  | .ok comps =>
  match (match fs.stats with
         | none => .error (.malformed "file not found")
         | some f =>
           match parseStatistics ⟨f, 0⟩ with
           | .error (e, _) => .error e
           | .ok (st, _) => .ok st : Except Err Statistics) with
  | .error e => .error (e, [.toc])
  | .ok stats =>
  let tr₁ : List LoadStep := [.toc, .statistics]
  match (if ComponentType.CompressionInfo ∈ comps then
           (readSimple parseCompression fs.compressionInfo).map some
         else .ok none : Except Err (Option Compression)) with
  | .error e => .error (e, tr₁)
  | .ok compr =>
  let tr₂ := tr₁ ++ (if ComponentType.CompressionInfo ∈ comps then [.compression] else [])
  match (if ComponentType.Filter ∈ comps then
           (readSimple parseFilter fs.filterFile).map some
         else .ok none : Except Err (Option SSTFilter)) with
  | .error e => .error (e, tr₂)
  | .ok filt =>
  let tr₃ := tr₂ ++ (if ComponentType.Filter ∈ comps then [.filterStep] else [])
  match readSimple parseSummary fs.summaryFile with
  | .error e => .error (e, tr₃)
  | .ok summ =>
  let tr₄ := tr₃ ++ [.summaryStep]
  match (match fs.indexFile, fs.dataFile with
         | some _, some d => .ok d.length
         | _, _ => .error .systemError : Except Err Nat) with
  | .error e => .error (e, tr₄)
  | .ok dsize =>
  let tr₅ := tr₄ ++ [.openData]
  if ComponentType.CompressionInfo ∈ comps then
    .ok (⟨comps, stats, compr.map (fun c => c.update dsize), filt, summ, dsize⟩,
         tr₅ ++ [.updateCompression])
  else
    .ok (⟨comps, stats, compr, filt, summ, dsize⟩, tr₅)

/-- The body the statistics dispatcher parses for a known tag `tag` at offset
`off` of the statistics file: tag 0 is validation metadata, tag 1 compaction
metadata, tag 2 stats metadata. -/
def bodyParsedAt (file : List Nat) (tag off : Nat) (b : MetadataBody) : Prop :=
  (tag = 0 ∧ ∃ v r', parseValidationMetadata ⟨file, off⟩ = .ok (v, r') ∧ b = .validation v) ∨
  (tag = 1 ∧ ∃ c r', parseCompactionMetadata ⟨file, off⟩ = .ok (c, r') ∧ b = .compaction c) ∨
  (tag = 2 ∧ ∃ m r', parseStatsMetadata ⟨file, off⟩ = .ok (m, r') ∧ b = .stats m)

/-- A well-formed one-entry summary file: header (`min_index_interval = 128`,
`size = 1`, `memory_size = 13`, `sampling_level = 128`,
`size_at_full_sampling = 1`), a positions table holding `4` in native
(little-endian) byte order, one 9-byte entry (key `"k"`, position `500`), and
u32-prefixed first/last keys `"k"`. -/
def sampleSummaryFile : List Nat :=
  [0,0,0,128, 0,0,0,1, 0,0,0,0,0,0,0,13, 0,0,0,128, 0,0,0,1] ++
    [4,0,0,0] ++ ([107] ++ [0,0,0,0,0,0,1,244]) ++ [0,0,0,1,107] ++ [0,0,0,1,107]

/-- A statistics file whose tag→offset map holds tag 0 (validation, at offset
20) and the unknown tag 99; the validation body is partitioner `"p"` and a zero
filter chance. -/
def sampleStatisticsFile : List Nat :=
  [0,0,0,2, 0,0,0,0, 0,0,0,20, 0,0,0,99, 0,0,0,0] ++ ([0,1,112] ++ [0,0,0,0,0,0,0,0])

/-- An index file holding exactly 7 full entries and nothing else. -/
def sampleIndexFile : List Nat :=
  (List.replicate 7 (⟨[107], 500, []⟩ : IndexEntry)).flatMap indexEntryBytes

/-- A complete set of well-formed companion files without compression: the TOC
lists six components, statistics and filter are empty, and the summary is the
32-zero-byte empty summary. -/
def sampleFS : FS :=
  ⟨some "Data.db\nIndex.db\nTOC.txt\nStatistics.db\nSummary.db\nFilter.db\n".data,
   some [0,0,0,0], none, some [0,0,0,3, 0,0,0,0], some (List.replicate 32 0),
   some [], some []⟩

/-- A summary file whose header declares `size = 0` and `memory_size = 2^32`:
24 header bytes, no positions table, and a run of zero bytes long enough that
the two u32-prefixed keys read at `sizeof(header) + memory_size` are empty
strings. -/
def cexSummaryFile : List Nat :=
  [0,0,0,0, 0,0,0,0, 0,0,0,1,0,0,0,0, 0,0,0,0, 0,0,0,0] ++ List.replicate (2 ^ 32 + 8) 0

/-- The summary the parser produces for `cexSummaryFile`: the synthetic trailing
position is `2^32 % 2^32 = 0`, not `memory_size = 2^32`. -/
def cexSummaryResult : Summary :=
  ⟨⟨0, 0, 2 ^ 32, 0, 0⟩, [0], [], [], []⟩

/-- The full step sequence of the `sstable::load` chain (line 733) when every
optional component is present, in chain order. -/
def loadOrder : List LoadStep :=
  [.toc, .statistics, .compression, .filterStep, .summaryStep, .openData,
   .updateCompression]

/-! ## Helper lemmas about the byte-level codec -/

theorem beEncode_length (w x : Nat) : (beEncode w x).length = w := by
  induction w generalizing x with
  | zero => rfl
  | succ w ih => simp [beEncode, ih]

theorem beValue_append (xs ys : List Nat) :
    beValue (xs ++ ys) = beValue xs * 256 ^ ys.length + beValue ys := by
  induction xs with
  | nil => simp [beValue]
  | cons b tl ih =>
    simp only [List.cons_append, beValue, List.append_eq, List.length_append, ih, pow_add]
    ring

theorem foldl_bytes_eq_beValue (l : List Nat) (a : Nat) :
    l.foldl (fun acc b => acc * 256 + b % 256) a = a * 256 ^ l.length + beValue l := by
  induction l generalizing a with
  | nil => simp [beValue]
  | cons b tl ih =>
    simp only [List.foldl_cons, ih, beValue, List.length_cons, pow_succ]
    ring

theorem readInteger_eq_beValue (buf : List Nat) (w : Nat) :
    readInteger buf w = beValue (buf.take w) := by
  simp [readInteger, foldl_bytes_eq_beValue]

theorem beValue_beEncode (w x : Nat) : beValue (beEncode w x) = x % 2 ^ (8 * w) := by
  induction w generalizing x with
  | zero => simp [beEncode, beValue, Nat.mod_one]
  | succ w ih =>
    have hpow : (2 : Nat) ^ (8 * (w + 1)) = 256 * 2 ^ (8 * w) := by ring
    simp only [beEncode, beValue_append, ih, beValue, List.length_cons, List.length_nil,
      pow_one, pow_zero, mul_one, add_zero, hpow, Nat.mod_mul]
    omega

theorem readInteger_beEncode (w x : Nat) :
    readInteger (beEncode w x) w = x % 2 ^ (8 * w) := by
  rw [readInteger_eq_beValue, List.take_of_length_le (by simp [beEncode_length]),
    beValue_beEncode]

theorem leDecode_eq_beValue_reverse (l : List Nat) :
    leDecode l = beValue l.reverse := by
  induction l with
  | nil => rfl
  | cons b tl ih =>
    simp only [leDecode, List.foldr_cons, List.reverse_cons, beValue_append, beValue]
    simp only [leDecode] at ih
    simp [ih]

theorem leDecode_lt (l : List Nat) : leDecode l < 256 ^ l.length := by
  induction l with
  | nil => simp [leDecode]
  | cons b tl ih =>
    simp only [leDecode, List.foldr_cons, List.length_cons] at *
    have hb : b % 256 < 256 := Nat.mod_lt _ (by omega)
    calc (tl.foldr (fun b acc => acc * 256 + b % 256) 0) * 256 + b % 256
        < (tl.foldr (fun b acc => acc * 256 + b % 256) 0) * 256 + 256 := by omega
      _ = ((tl.foldr (fun b acc => acc * 256 + b % 256) 0) + 1) * 256 := by ring
      _ ≤ 256 ^ tl.length * 256 := by
          have : (tl.foldr (fun b acc => acc * 256 + b % 256) 0) + 1 ≤ 256 ^ tl.length := ih
          exact Nat.mul_le_mul_right _ this
      _ = 256 ^ (tl.length + 1) := by ring

/-! ## Helper lemmas about the reader -/

theorem length_sub_of_drop {file chunk rest : List Nat} {pos : Nat}
    (hd : file.drop pos = chunk ++ rest) :
    file.length - pos = chunk.length + rest.length := by
  have := congrArg List.length hd
  simpa [List.length_drop] using this

theorem readExactly_of_drop {file chunk rest : List Nat} {pos n : Nat}
    (hd : file.drop pos = chunk ++ rest) (hc : chunk.length = n)
    (hpos : pos + n ≤ file.length) :
    readExactly ⟨file, pos⟩ n = (chunk, ⟨file, pos + n⟩) := by
  subst hc
  simp [readExactly, hd, List.take_append_of_le_length (le_refl chunk.length),
    Nat.min_eq_left hpos]

theorem parseInt_of_drop {file chunk rest : List Nat} {pos w : Nat}
    (hd : file.drop pos = chunk ++ rest) (hc : chunk.length = w)
    (hpos : pos + w ≤ file.length) :
    parseInt w ⟨file, pos⟩ = .ok (readInteger chunk w, ⟨file, pos + w⟩) := by
  rw [parseInt, readExactly_of_drop hd hc hpos]
  simp [checkBufSize, hc, readInteger]

theorem parseInt_beEncode_of_drop {file rest : List Nat} {pos w x : Nat}
    (hd : file.drop pos = beEncode w x ++ rest) (hx : x < 2 ^ (8 * w))
    (hpos : pos + w ≤ file.length) :
    parseInt w ⟨file, pos⟩ = .ok (x, ⟨file, pos + w⟩) := by
  rw [parseInt_of_drop hd (beEncode_length w x) hpos, readInteger_beEncode,
    Nat.mod_eq_of_lt hx]

theorem pos_add_le_of_drop {file chunk rest : List Nat} {pos : Nat}
    (hd : file.drop pos = chunk ++ rest) (h0 : 0 < chunk.length) :
    pos + chunk.length ≤ file.length := by
  have := length_sub_of_drop hd
  omega

theorem parseInt_beEncode_at {file rest : List Nat} {pos w x : Nat}
    (hd : file.drop pos = beEncode w x ++ rest) (hx : x < 2 ^ (8 * w)) (hw : 0 < w) :
    parseInt w ⟨file, pos⟩ = .ok (x, ⟨file, pos + w⟩) := by
  have h := pos_add_le_of_drop hd (by rw [beEncode_length]; omega)
  rw [beEncode_length] at h
  exact parseInt_beEncode_of_drop hd hx h

theorem drop_of_drop_append {file chunk rest : List Nat} {pos : Nat}
    (hd : file.drop pos = chunk ++ rest) :
    file.drop (pos + chunk.length) = rest := by
  rw [← List.drop_drop, hd, List.drop_left]

theorem parseDiskString_of_drop {file s rest : List Nat} {pos w : Nat}
    (hd : file.drop pos = beEncode w s.length ++ (s ++ rest)) (hw : 0 < w)
    (hlen : s.length < 2 ^ (8 * w)) :
    parseDiskString w ⟨file, pos⟩ = .ok (s, ⟨file, pos + w + s.length⟩) := by
  have hbe := beEncode_length w s.length
  have hall := length_sub_of_drop hd
  rw [hbe] at hall
  simp only [List.length_append] at hall
  have hd2 : file.drop (pos + w) = s ++ rest := by
    have h := drop_of_drop_append hd
    rwa [hbe] at h
  have h1 := parseInt_beEncode_of_drop (x := s.length) hd hlen (by omega)
  have h2 := readExactly_of_drop hd2 rfl (by omega)
  simp only [parseDiskString, h1, h2, checkBufSize]
  simp

theorem parseDouble_eq_parseInt (r : Reader) : parseDouble r = parseInt 8 r := rfl

theorem parseBool_of_drop {file rest : List Nat} {pos : Nat} {b : Bool}
    (hd : file.drop pos = writeBool b ++ rest) :
    parseBool ⟨file, pos⟩ = .ok (b, ⟨file, pos + 1⟩) := by
  have h1 := parseInt_beEncode_of_drop (w := 1) (x := if b then 1 else 0)
    (by simpa [writeBool] using hd) (by cases b <;> norm_num)
    (pos_add_le_of_drop (by simpa [writeBool] using hd) (by simp [beEncode_length]))
  rw [parseBool, h1]
  cases b <;> simp

theorem writeElems_ints (mw : Nat) (elems : List Nat) :
    writeElems (fun x => .ok (beEncode mw x)) elems = .ok (elems.flatMap (beEncode mw)) := by
  induction elems with
  | nil => rfl
  | cons e tl ih => simp [writeElems, ih, List.flatMap_cons]

/-- C10: the buffer-size check applied after every `read_exactly` rejects a
buffer only when it is strictly smaller than the expected size; any buffer of
size greater than or equal to the requested size passes, so an oversized buffer
is accepted rather than reported as a mismatch. -/
theorem check_buf_size_threshold (buf : List Nat) (expected : Nat) :
    (checkBufSize buf expected = .ok () ↔ expected ≤ buf.length) ∧
    (buf.length < expected →
      checkBufSize buf expected = .error (.underfullBuffer buf.length expected)) := by
  unfold checkBufSize
  by_cases h : buf.length < expected
  · simp [h] <;> omega
  · simp [h] <;> omega

/-- Witness for `check_buf_size_threshold`: a buffer of 3 bytes passes a check
for 2 expected bytes. -/
theorem check_buf_size_threshold_witness : checkBufSize [1, 2, 3] 2 = .ok () :=
  (check_buf_size_threshold [1, 2, 3] 2).1.mpr (by simp)

/-- C3: encoding a `disk_string` or a `disk_array` with an `S`-byte length
prefix fails with `Overflow` exactly when the source length is at least the
maximum value of `S` (`2^(8S) - 1`, the bound being inclusive), and otherwise
writes the prefix holding that length followed by the payload. -/
theorem width_guard_overflow :
    (∀ (w : Nat) (s : List Nat),
      writeDiskString w s = .error .overflow ↔ 2 ^ (8 * w) - 1 ≤ s.length) ∧
    (∀ (w : Nat) (s : List Nat), s.length < 2 ^ (8 * w) - 1 →
      writeDiskString w s = .ok (beEncode w s.length ++ s)) ∧
    (∀ (w mw : Nat) (elems : List Nat),
      writeDiskArrayInts w mw elems = .error .overflow ↔ 2 ^ (8 * w) - 1 ≤ elems.length) ∧
    (∀ (w mw : Nat) (elems : List Nat), elems.length < 2 ^ (8 * w) - 1 →
      writeDiskArrayInts w mw elems =
        .ok (beEncode w elems.length ++ elems.flatMap (beEncode mw))) := by
  refine ⟨fun w s => ?_, fun w s h => ?_, fun w mw elems => ?_, fun w mw elems h => ?_⟩
  · unfold writeDiskString check_truncate_and_assign
    by_cases h : 2 ^ (8 * w) - 1 ≤ s.length <;> simp [h]
  · unfold writeDiskString check_truncate_and_assign
    simp [Nat.not_le.mpr h]
  · unfold writeDiskArrayInts writeDiskArrayWith check_truncate_and_assign
    by_cases h : 2 ^ (8 * w) - 1 ≤ elems.length <;> simp [h, writeElems_ints]
  · unfold writeDiskArrayInts writeDiskArrayWith check_truncate_and_assign
    simp [Nat.not_le.mpr h, writeElems_ints]

/-- Witness for `width_guard_overflow`: a 255-byte string overflows a u8 prefix
(inclusive bound), while a 2-byte string under a u16 prefix encodes with its
length in the prefix. -/
theorem width_guard_overflow_witness :
    writeDiskString 1 (List.replicate 255 7) = .error .overflow ∧
    writeDiskString 2 [10, 20] = .ok [0, 2, 10, 20] := by
  constructor
  · exact (width_guard_overflow.1 1 _).mpr (by rw [List.length_replicate]; norm_num)
  · have h := width_guard_overflow.2.1 2 [10, 20] (by norm_num)
    rw [h]; rfl

theorem find?_foldl_emplace (ps : List (Nat × Nat)) :
    ∀ (acc : List (Nat × Nat)) (k : Nat),
      ((ps.foldl (fun a p => emplace a p.1 p.2) acc).find? (fun q => q.1 = k)) =
        ((acc.find? (fun q => q.1 = k)).or (ps.find? (fun q => q.1 = k))) := by
  induction ps with
  | nil => intro acc k; simp
  | cons p tl ih =>
    intro acc k
    rw [List.foldl_cons, ih]
    by_cases hmem : acc.any (fun q => q.1 = p.1)
    · rw [emplace, if_pos hmem]
      by_cases hk : p.1 = k
      · subst hk
        have hsome : (acc.find? (fun q => q.1 = p.1)).isSome := by
          rw [List.find?_isSome]
          exact List.any_eq_true.mp hmem
        rw [Option.or_of_isSome hsome, Option.or_of_isSome hsome]
      · rw [List.find?_cons_of_neg _ (by simpa using hk)]
    · rw [emplace, if_neg hmem, List.find?_append, Option.or_assoc]
      by_cases hk : p.1 = k
      · rw [List.find?_cons_of_pos _ (by simpa using hk),
          List.find?_cons_of_pos _ (by simpa using hk)]
        simp
      · rw [List.find?_cons_of_neg _ (by simpa using hk),
          List.find?_cons_of_neg _ (by simpa using hk)]
        simp

theorem parseMapEntries_ints_of_drop (kw vw : Nat) (hkw : 0 < kw) (hvw : 0 < vw)
    (ps : List (Nat × Nat)) :
    ∀ (acc : List (Nat × Nat)) (file rest : List Nat) (pos : Nat),
      file.drop pos = ps.flatMap (fun p => beEncode kw p.1 ++ beEncode vw p.2) ++ rest →
      (∀ p ∈ ps, p.1 < 2 ^ (8 * kw) ∧ p.2 < 2 ^ (8 * vw)) →
      parseMapEntries (parseInt kw) (parseInt vw) ps.length acc ⟨file, pos⟩ =
        .ok (ps.foldl (fun a p => emplace a p.1 p.2) acc,
             ⟨file, pos + (ps.flatMap (fun p => beEncode kw p.1 ++ beEncode vw p.2)).length⟩) := by
  induction ps with
  | nil =>
    intro acc file rest pos _ _
    simp [parseMapEntries]
  | cons p tl ih =>
    intro acc file rest pos hd hb
    rw [List.flatMap_cons, List.append_assoc, List.append_assoc] at hd
    have hb1 := hb p (List.mem_cons_self p tl)
    have hk := parseInt_beEncode_at hd hb1.1 hkw
    have hd2 : file.drop (pos + kw) =
        beEncode vw p.2 ++ (tl.flatMap (fun p => beEncode kw p.1 ++ beEncode vw p.2) ++ rest) := by
      have h := drop_of_drop_append hd
      rwa [beEncode_length] at h
    have hv := parseInt_beEncode_at hd2 hb1.2 hvw
    have hd3 : file.drop (pos + kw + vw) =
        tl.flatMap (fun p => beEncode kw p.1 ++ beEncode vw p.2) ++ rest := by
      have h := drop_of_drop_append hd2
      rwa [beEncode_length] at h
    rw [List.length_cons]
    simp only [parseMapEntries, hk, hv]
    rw [ih (emplace acc p.1 p.2) file rest (pos + kw + vw) hd3
      (fun q hq => hb q (List.mem_cons_of_mem _ hq))]
    simp only [List.foldl_cons, List.flatMap_cons, List.length_append, beEncode_length,
      Except.ok.injEq, Prod.mk.injEq, Reader.mk.injEq, true_and, and_true]
    omega

/-- C2 counterexample: a `map<u32, u32, u32>` encoding two pairs with the same
key `5` — values `1` then `2` — decodes to a map binding `5` to the EARLIER
value `1` (`emplace` does not overwrite), not to the later value `2` as the
claim states. -/
theorem map_duplicate_key_cex :
    parseDiskHashInts 4 4 4 ⟨[0,0,0,2, 0,0,0,5, 0,0,0,1, 0,0,0,5, 0,0,0,2], 0⟩ =
      .ok ([(5, 1)], ⟨[0,0,0,2, 0,0,0,5, 0,0,0,1, 0,0,0,5, 0,0,0,2], 20⟩) ∧
    ¬ ([((5:Nat), (1:Nat))] = [(5, 2)]) := by
  constructor
  · rfl
  · decide

/-- C2 (amended): decoding a `map<S, K, V>` reads a length-prefix of width `S`
giving the entry count, then `count` pairs each encoding `K` then `V` in
declaration order; when two pairs carry the same key, the EARLIER pair's value
is kept and the later pair is ignored (`unordered_map::emplace` does not
overwrite an existing key). -/
theorem map_decode_first_wins (sw kw vw : Nat) (ps : List (Nat × Nat)) (rest : List Nat)
    (hsw : 0 < sw) (hkw : 0 < kw) (hvw : 0 < vw)
    (hcount : ps.length < 2 ^ (8 * sw))
    (hvals : ∀ p ∈ ps, p.1 < 2 ^ (8 * kw) ∧ p.2 < 2 ^ (8 * vw)) :
    ∃ m : List (Nat × Nat),
      parseDiskHashInts sw kw vw
          ⟨beEncode sw ps.length ++
             (ps.flatMap (fun p => beEncode kw p.1 ++ beEncode vw p.2) ++ rest), 0⟩ =
        .ok (m,
          ⟨beEncode sw ps.length ++
             (ps.flatMap (fun p => beEncode kw p.1 ++ beEncode vw p.2) ++ rest),
           sw + (ps.flatMap (fun p => beEncode kw p.1 ++ beEncode vw p.2)).length⟩) ∧
      ∀ k : Nat, (m.find? (fun q => q.1 = k)).map (fun q => q.2) =
        (ps.find? (fun q => q.1 = k)).map (fun q => q.2) := by
  refine ⟨ps.foldl (fun a p => emplace a p.1 p.2) [], ?_, ?_⟩
  · have hd0 : (beEncode sw ps.length ++
        (ps.flatMap (fun p => beEncode kw p.1 ++ beEncode vw p.2) ++ rest)).drop 0 =
        beEncode sw ps.length ++
          (ps.flatMap (fun p => beEncode kw p.1 ++ beEncode vw p.2) ++ rest) := by
      simp
    have h1 := parseInt_beEncode_at hd0 hcount hsw
    have hd1 : (beEncode sw ps.length ++
        (ps.flatMap (fun p => beEncode kw p.1 ++ beEncode vw p.2) ++ rest)).drop (0 + sw) =
        ps.flatMap (fun p => beEncode kw p.1 ++ beEncode vw p.2) ++ rest := by
      have h := drop_of_drop_append hd0
      rwa [beEncode_length] at h
    have h2 := parseMapEntries_ints_of_drop kw vw hkw hvw ps []
      (beEncode sw ps.length ++
        (ps.flatMap (fun p => beEncode kw p.1 ++ beEncode vw p.2) ++ rest))
      rest (0 + sw) hd1 hvals
    rw [Nat.zero_add] at h2
    simp only [parseDiskHashInts, parseDiskHashWith, h1, h2, Nat.zero_add]
  · intro k
    rw [find?_foldl_emplace]
    simp

/-- Witness for `map_decode_first_wins`: the two-pair duplicate-key input from
the counterexample, where the binding for key 5 is the first value 1. -/
theorem map_decode_first_wins_witness :
    ∃ m : List (Nat × Nat),
      parseDiskHashInts 4 4 4 ⟨[0,0,0,2, 0,0,0,5, 0,0,0,1, 0,0,0,5, 0,0,0,2], 0⟩ =
        .ok (m, ⟨[0,0,0,2, 0,0,0,5, 0,0,0,1, 0,0,0,5, 0,0,0,2], 20⟩) ∧
      ∀ k : Nat, (m.find? (fun q => q.1 = k)).map (fun q => q.2) =
        (([((5:Nat), (1:Nat)), (5, 2)].find? (fun q => q.1 = k)).map (fun q => q.2)) := by
  exact map_decode_first_wins 4 4 4 [(5, 1), (5, 2)] [] (by norm_num) (by norm_num)
    (by norm_num) (by norm_num) (by decide)

theorem readInteger_append {chunk rest : List Nat} {w : Nat} (hc : chunk.length = w) :
    readInteger (chunk ++ rest) w = readInteger chunk w := by
  unfold readInteger
  rw [List.take_append_of_le_length (by omega), List.take_of_length_le (by omega)]

theorem length_flatMap_beEncode (mw : Nat) (elems : List Nat) :
    (elems.flatMap (beEncode mw)).length = elems.length * mw := by
  induction elems with
  | nil => simp
  | cons e tl ih =>
    simp only [List.flatMap_cons, List.length_append, beEncode_length, ih, List.length_cons]
    ring

theorem readInteger_flatMap_pointwise (mw : Nat) (elems : List Nat) :
    ∀ (rest : List Nat) (i : Nat), i < elems.length → (∀ e ∈ elems, e < 2 ^ (8 * mw)) →
      readInteger ((elems.flatMap (beEncode mw) ++ rest).drop (mw * i)) mw =
        elems.getD i 0 := by
  induction elems with
  | nil => intro rest i hi _; simp at hi
  | cons e tl ih =>
    intro rest i hi hb
    cases i with
    | zero =>
      rw [Nat.mul_zero, List.drop_zero, List.flatMap_cons, List.append_assoc,
        readInteger_append (beEncode_length mw e), readInteger_beEncode,
        Nat.mod_eq_of_lt (hb e (List.mem_cons_self e tl))]
      rfl
    | succ j =>
      have hstep : mw * (j + 1) = (beEncode mw e).length + mw * j := by
        rw [beEncode_length]; ring
      rw [List.flatMap_cons, List.append_assoc, hstep, List.drop_append]
      simpa using ih rest j (by simpa using hi) (fun x hx => hb x (List.mem_cons_of_mem _ hx))

theorem parseArrayInts_of_drop {file rest elems : List Nat} {pos mw : Nat}
    (hd : file.drop pos = elems.flatMap (beEncode mw) ++ rest)
    (hb : ∀ e ∈ elems, e < 2 ^ (8 * mw)) (hpos : pos ≤ file.length) :
    parseArrayInts mw elems.length ⟨file, pos⟩ =
      .ok (elems, ⟨file, pos + elems.length * mw⟩) := by
  have hlen := length_flatMap_beEncode mw elems
  have hsub := length_sub_of_drop hd
  have hre := readExactly_of_drop hd hlen (by omega)
  simp only [parseArrayInts, hre, checkBufSize, hlen, Nat.lt_irrefl, if_false]
  have hmap : (List.range elems.length).map
      (fun i => readInteger ((elems.flatMap (beEncode mw)).drop (mw * i)) mw) = elems := by
    apply List.ext_getElem (by simp)
    intro i h1 h2
    simp only [List.getElem_map, List.getElem_range]
    have := readInteger_flatMap_pointwise mw elems [] i (by simpa using h2) hb
    rw [List.append_nil] at this
    rw [this, List.getD_eq_getElem?_getD, List.getElem?_eq_getElem h2]
    rfl
  rw [hmap]

theorem parseDiskArrayInts_of_drop {file rest elems : List Nat} {pos w mw : Nat}
    (hd : file.drop pos = beEncode w elems.length ++ (elems.flatMap (beEncode mw) ++ rest))
    (hw : 0 < w) (hcount : elems.length < 2 ^ (8 * w))
    (hb : ∀ e ∈ elems, e < 2 ^ (8 * mw)) :
    parseDiskArrayInts w mw ⟨file, pos⟩ =
      .ok (elems, ⟨file, pos + w + elems.length * mw⟩) := by
  have h1 := parseInt_beEncode_at hd hcount hw
  have hd2 : file.drop (pos + w) = elems.flatMap (beEncode mw) ++ rest := by
    have h := drop_of_drop_append hd
    rwa [beEncode_length] at h
  have hsub := length_sub_of_drop hd
  rw [beEncode_length] at hsub
  have h2 := parseArrayInts_of_drop hd2 hb (by omega)
  simp only [parseDiskArrayInts, h1, h2]

theorem writeElems_strings (sw : Nat) (ss : List (List Nat))
    (h : ∀ s ∈ ss, s.length < 2 ^ (8 * sw) - 1) :
    writeElems (writeDiskString sw) ss =
      .ok (ss.flatMap (fun s => beEncode sw s.length ++ s)) := by
  induction ss with
  | nil => rfl
  | cons s tl ih =>
    have hs := h s (List.mem_cons_self s tl)
    have hw : writeDiskString sw s = .ok (beEncode sw s.length ++ s) := by
      unfold writeDiskString check_truncate_and_assign
      simp [Nat.not_le.mpr hs]
    simp [writeElems, hw, ih (fun x hx => h x (List.mem_cons_of_mem _ hx)),
      List.flatMap_cons]

theorem parseArrayElems_strings_of_drop (sw : Nat) (hsw : 0 < sw) (ss : List (List Nat)) :
    ∀ (file rest : List Nat) (pos : Nat),
      file.drop pos = ss.flatMap (fun s => beEncode sw s.length ++ s) ++ rest →
      (∀ s ∈ ss, s.length < 2 ^ (8 * sw)) →
      parseArrayElems (parseDiskString sw) ss.length ⟨file, pos⟩ =
        .ok (ss, ⟨file, pos + (ss.flatMap (fun s => beEncode sw s.length ++ s)).length⟩) := by
  induction ss with
  | nil =>
    intro file rest pos _ _
    simp [parseArrayElems]
  | cons s tl ih =>
    intro file rest pos hd hb
    rw [List.flatMap_cons, List.append_assoc, List.append_assoc] at hd
    have h1 := parseDiskString_of_drop hd hsw (hb s (List.mem_cons_self s tl))
    have hd2 : file.drop (pos + sw + s.length) =
        tl.flatMap (fun s => beEncode sw s.length ++ s) ++ rest := by
      have h := drop_of_drop_append hd
      rw [beEncode_length] at h
      have h2 := drop_of_drop_append h
      exact h2
    have h2 := ih file rest (pos + sw + s.length) hd2
      (fun x hx => hb x (List.mem_cons_of_mem _ hx))
    rw [List.length_cons]
    simp only [parseArrayElems, h1, h2, Except.ok.injEq, Prod.mk.injEq, Reader.mk.injEq,
      List.flatMap_cons, List.length_append, beEncode_length, true_and, and_true]
    omega

theorem foldl_emplace_nodup (m : List (Nat × Nat)) :
    ∀ acc : List (Nat × Nat),
      (m.map (fun p => p.1)).Nodup →
      (∀ p ∈ m, ¬ acc.any (fun q => q.1 = p.1)) →
      m.foldl (fun a p => emplace a p.1 p.2) acc = acc ++ m := by
  induction m with
  | nil => intro acc _ _; simp
  | cons p tl ih =>
    intro acc hnd habs
    rw [List.foldl_cons, emplace, if_neg (habs p (List.mem_cons_self p tl))]
    rw [List.map_cons, List.nodup_cons] at hnd
    rw [ih (acc ++ [p]) hnd.2 ?habs2]
    · simp
    case habs2 =>
      intro q hq
      simp only [List.any_append, Bool.or_eq_true, not_or]
      constructor
      · exact habs q (List.mem_cons_of_mem _ hq)
      · simp only [List.any_cons, List.any_nil, Bool.or_false]
        intro hcontra
        exact hnd.1 (by
          have : p.1 = q.1 := by simpa using hcontra
          rw [this]
          exact List.mem_map_of_mem (fun p => p.1) hq)

theorem writeDiskString_ok_inv {w : Nat} {s bs : List Nat}
    (h : writeDiskString w s = .ok bs) :
    s.length < 2 ^ (8 * w) - 1 ∧ bs = beEncode w s.length ++ s := by
  unfold writeDiskString check_truncate_and_assign at h
  by_cases hle : 2 ^ (8 * w) - 1 ≤ s.length
  · simp [hle] at h
  · simp only [if_neg hle, Except.ok.injEq] at h
    exact ⟨by omega, h.symm⟩

theorem writeDiskArrayInts_ok_inv {w mw : Nat} {elems bs : List Nat}
    (h : writeDiskArrayInts w mw elems = .ok bs) :
    elems.length < 2 ^ (8 * w) - 1 ∧
      bs = beEncode w elems.length ++ elems.flatMap (beEncode mw) := by
  unfold writeDiskArrayInts writeDiskArrayWith check_truncate_and_assign at h
  rw [writeElems_ints] at h
  by_cases hle : 2 ^ (8 * w) - 1 ≤ elems.length
  · simp [hle] at h
  · simp only [if_neg hle, Except.ok.injEq] at h
    exact ⟨by omega, h.symm⟩

theorem writeDiskHashInts_ok_inv {sw kw vw : Nat} {m : List (Nat × Nat)} {bs : List Nat}
    (h : writeDiskHashInts sw kw vw m = .ok bs) :
    m.length < 2 ^ (8 * sw) - 1 ∧
      bs = beEncode sw m.length ++ m.flatMap (fun p => beEncode kw p.1 ++ beEncode vw p.2) := by
  unfold writeDiskHashInts check_truncate_and_assign at h
  by_cases hle : 2 ^ (8 * sw) - 1 ≤ m.length
  · simp [hle] at h
  · simp only [if_neg hle, Except.ok.injEq] at h
    exact ⟨by omega, h.symm⟩

/-- C8: parse-after-write is the identity for every scalar (any integer width,
enums through their underlying width, bool, and f64 bit patterns) and for every
shape whose lengths fit the declared prefixes: sized strings, sized arrays of
integers, sized arrays of variable-sized members (u16-prefixed strings), sized
maps (writer modelled from the spec, §6.3), and the records `option` and
`filter` whose field lists drive both directions.  The encoded bytes are a
deterministic function of the value because every writer is a pure function. -/
theorem parse_write_roundtrip :
    (∀ (w x : Nat) (rest : List Nat), 0 < w → x < 2 ^ (8 * w) →
      parseInt w ⟨writeInt w x ++ rest, 0⟩ = .ok (x, ⟨writeInt w x ++ rest, w⟩)) ∧
    (∀ (w x : Nat) (rest : List Nat), 0 < w → x < 2 ^ (8 * w) →
      parseEnum w ⟨writeEnum w x ++ rest, 0⟩ = .ok (x, ⟨writeEnum w x ++ rest, w⟩)) ∧
    (∀ (b : Bool) (rest : List Nat),
      parseBool ⟨writeBool b ++ rest, 0⟩ = .ok (b, ⟨writeBool b ++ rest, 1⟩)) ∧
    (∀ (bits : Nat) (rest : List Nat), bits < 2 ^ 64 →
      parseDouble ⟨writeDouble bits ++ rest, 0⟩ = .ok (bits, ⟨writeDouble bits ++ rest, 8⟩)) ∧
    (∀ (w : Nat) (s bs rest : List Nat), 0 < w → writeDiskString w s = .ok bs →
      parseDiskString w ⟨bs ++ rest, 0⟩ = .ok (s, ⟨bs ++ rest, bs.length⟩)) ∧
    (∀ (w mw : Nat) (elems bs rest : List Nat), 0 < w →
      (∀ e ∈ elems, e < 2 ^ (8 * mw)) → writeDiskArrayInts w mw elems = .ok bs →
      parseDiskArrayInts w mw ⟨bs ++ rest, 0⟩ = .ok (elems, ⟨bs ++ rest, bs.length⟩)) ∧
    (∀ (w : Nat) (ss : List (List Nat)) (bs rest : List Nat), 0 < w →
      ss.length < 2 ^ (8 * w) - 1 → (∀ s ∈ ss, s.length < 2 ^ 16 - 1) →
      writeDiskArrayWith w (writeDiskString 2) ss = .ok bs →
      parseDiskArrayWith w (parseDiskString 2) ⟨bs ++ rest, 0⟩ =
        .ok (ss, ⟨bs ++ rest, bs.length⟩)) ∧
    (∀ (sw kw vw : Nat) (m : List (Nat × Nat)) (bs rest : List Nat),
      0 < sw → 0 < kw → 0 < vw →
      (∀ p ∈ m, p.1 < 2 ^ (8 * kw) ∧ p.2 < 2 ^ (8 * vw)) →
      (m.map (fun p => p.1)).Nodup →
      writeDiskHashInts sw kw vw m = .ok bs →
      parseDiskHashInts sw kw vw ⟨bs ++ rest, 0⟩ = .ok (m, ⟨bs ++ rest, bs.length⟩)) ∧
    (∀ (o : OptionKV) (bs rest : List Nat), writeOptionKV o = .ok bs →
      parseOptionKV ⟨bs ++ rest, 0⟩ = .ok (o, ⟨bs ++ rest, bs.length⟩)) ∧
    (∀ (f : SSTFilter) (bs rest : List Nat), f.hashes < 2 ^ 32 →
      (∀ e ∈ f.buckets, e < 2 ^ 64) → writeFilter f = .ok bs →
      parseFilter ⟨bs ++ rest, 0⟩ = .ok (f, ⟨bs ++ rest, bs.length⟩)) := by
  have hint : ∀ (w x : Nat) (rest : List Nat), 0 < w → x < 2 ^ (8 * w) →
      parseInt w ⟨writeInt w x ++ rest, 0⟩ = .ok (x, ⟨writeInt w x ++ rest, w⟩) := by
    intro w x rest hw hx
    have hd : (writeInt w x ++ rest).drop 0 = beEncode w x ++ rest := by
      simp [writeInt]
    simpa using parseInt_beEncode_at hd hx hw
  have hstring : ∀ (w : Nat) (s bs rest : List Nat), 0 < w → writeDiskString w s = .ok bs →
      parseDiskString w ⟨bs ++ rest, 0⟩ = .ok (s, ⟨bs ++ rest, bs.length⟩) := by
    intro w s bs rest hw hok
    obtain ⟨hfit, hbs⟩ := writeDiskString_ok_inv hok
    subst hbs
    have hd : ((beEncode w s.length ++ s) ++ rest).drop 0 = beEncode w s.length ++ (s ++ rest) := by
      simp [List.append_assoc]
    have h := parseDiskString_of_drop hd hw (by omega)
    simpa [beEncode_length, Nat.add_comm] using h
  refine ⟨hint, hint, ?_, ?_, hstring, ?_, ?_, ?_, ?_, ?_⟩
  · intro b rest
    have hd : (writeBool b ++ rest).drop 0 = writeBool b ++ rest := by simp
    simpa using @parseBool_of_drop _ rest _ b hd
  · intro bits rest hb
    rw [parseDouble_eq_parseInt]
    exact hint 8 bits rest (by omega) hb
  · intro w mw elems bs rest hw hb hok
    obtain ⟨hfit, hbs⟩ := writeDiskArrayInts_ok_inv hok
    subst hbs
    have hd : ((beEncode w elems.length ++ elems.flatMap (beEncode mw)) ++ rest).drop 0 =
        beEncode w elems.length ++ (elems.flatMap (beEncode mw) ++ rest) := by
      simp [List.append_assoc]
    have h := parseDiskArrayInts_of_drop hd hw (by omega) hb
    rw [h]
    simp only [Except.ok.injEq, Prod.mk.injEq, Reader.mk.injEq, List.length_append,
      beEncode_length, length_flatMap_beEncode, true_and]
    omega
  · intro w ss bs rest hw hcount hfit hok
    have hwe := writeElems_strings 2 ss hfit
    have hbs : bs = beEncode w ss.length ++ ss.flatMap (fun s => beEncode 2 s.length ++ s) := by
      unfold writeDiskArrayWith check_truncate_and_assign at hok
      rw [hwe] at hok
      simp only [if_neg (Nat.not_le.mpr hcount), Except.ok.injEq] at hok
      exact hok.symm
    subst hbs
    have hd : ((beEncode w ss.length ++ ss.flatMap (fun s => beEncode 2 s.length ++ s)) ++
        rest).drop 0 =
        beEncode w ss.length ++ (ss.flatMap (fun s => beEncode 2 s.length ++ s) ++ rest) := by
      simp [List.append_assoc]
    have h1 := parseInt_beEncode_at hd (by omega) hw
    have hd2 : ((beEncode w ss.length ++ ss.flatMap (fun s => beEncode 2 s.length ++ s)) ++
        rest).drop (0 + w) = ss.flatMap (fun s => beEncode 2 s.length ++ s) ++ rest := by
      have h := drop_of_drop_append hd
      rwa [beEncode_length] at h
    have h2 := parseArrayElems_strings_of_drop 2 (by omega) ss _ rest (0 + w) hd2
      (fun s hs => by have := hfit s hs; omega)
    simp only [parseDiskArrayWith, h1, h2]
    simp only [Except.ok.injEq, Prod.mk.injEq, Reader.mk.injEq, List.length_append,
      beEncode_length, true_and]
    omega
  · intro sw kw vw m bs rest hsw hkw hvw hb hnd hok
    obtain ⟨hfit, hbs⟩ := writeDiskHashInts_ok_inv hok
    subst hbs
    have hd : ((beEncode sw m.length ++
        m.flatMap (fun p => beEncode kw p.1 ++ beEncode vw p.2)) ++ rest).drop 0 =
        beEncode sw m.length ++
          (m.flatMap (fun p => beEncode kw p.1 ++ beEncode vw p.2) ++ rest) := by
      simp [List.append_assoc]
    have h1 := parseInt_beEncode_at hd (by omega) hsw
    have hd2 : ((beEncode sw m.length ++
        m.flatMap (fun p => beEncode kw p.1 ++ beEncode vw p.2)) ++ rest).drop (0 + sw) =
        m.flatMap (fun p => beEncode kw p.1 ++ beEncode vw p.2) ++ rest := by
      have h := drop_of_drop_append hd
      rwa [beEncode_length] at h
    have h2 := parseMapEntries_ints_of_drop kw vw hkw hvw m [] _ rest (0 + sw) hd2 hb
    rw [foldl_emplace_nodup m [] hnd (by simp)] at h2
    simp only [List.nil_append] at h2
    simp only [parseDiskHashInts, parseDiskHashWith, h1, h2]
    simp only [Except.ok.injEq, Prod.mk.injEq, Reader.mk.injEq, List.length_append,
      beEncode_length, true_and]
    omega
  · intro o bs rest hok
    unfold writeOptionKV at hok
    rcases hk : writeDiskString 2 o.key with ek | bk
    · rw [hk] at hok; cases hok
    rcases hv : writeDiskString 2 o.value with ev | bv
    · rw [hk, hv] at hok; cases hok
    rw [hk, hv] at hok
    simp only [Except.ok.injEq] at hok
    subst hok
    obtain ⟨hkfit, hkbs⟩ := writeDiskString_ok_inv hk
    obtain ⟨hvfit, hvbs⟩ := writeDiskString_ok_inv hv
    subst hkbs hvbs
    have hd1 : (((beEncode 2 o.key.length ++ o.key) ++ (beEncode 2 o.value.length ++ o.value)) ++
        rest).drop 0 = beEncode 2 o.key.length ++
          (o.key ++ ((beEncode 2 o.value.length ++ o.value) ++ rest)) := by
      simp [List.append_assoc]
    have h1 := parseDiskString_of_drop hd1 (by omega) (by omega)
    have hd2 : (((beEncode 2 o.key.length ++ o.key) ++ (beEncode 2 o.value.length ++ o.value)) ++
        rest).drop (0 + 2 + o.key.length) =
        beEncode 2 o.value.length ++ (o.value ++ rest) := by
      have h := drop_of_drop_append hd1
      rw [beEncode_length] at h
      have h2 := drop_of_drop_append h
      simpa [List.append_assoc] using h2
    have h2 := parseDiskString_of_drop hd2 (by omega) (by omega)
    simp only [parseOptionKV, h1, h2]
    simp only [Except.ok.injEq, Prod.mk.injEq, Reader.mk.injEq, List.length_append,
      beEncode_length, true_and]
    omega
  · intro f bs rest hh hb hok
    unfold writeFilter at hok
    rcases ha : writeDiskArrayInts 4 8 f.buckets with ea | ba
    · rw [ha] at hok; cases hok
    rw [ha] at hok
    simp only [Except.ok.injEq] at hok
    subst hok
    obtain ⟨hfit, hbs⟩ := writeDiskArrayInts_ok_inv ha
    subst hbs
    have hd0 : ((writeInt 4 f.hashes ++
        (beEncode 4 f.buckets.length ++ f.buckets.flatMap (beEncode 8))) ++ rest).drop 0 =
        beEncode 4 f.hashes ++
          ((beEncode 4 f.buckets.length ++ f.buckets.flatMap (beEncode 8)) ++ rest) := by
      simp [writeInt, List.append_assoc]
    have h1 := parseInt_beEncode_at hd0 hh (by omega)
    have hd1 : ((writeInt 4 f.hashes ++
        (beEncode 4 f.buckets.length ++ f.buckets.flatMap (beEncode 8))) ++ rest).drop (0 + 4) =
        beEncode 4 f.buckets.length ++ (f.buckets.flatMap (beEncode 8) ++ rest) := by
      have h := drop_of_drop_append hd0
      rw [beEncode_length] at h
      simpa [List.append_assoc] using h
    have h2 := parseDiskArrayInts_of_drop hd1 (by omega) (by omega) hb
    simp only [parseFilter, h1, h2]
    simp only [Except.ok.injEq, Prod.mk.injEq, Reader.mk.injEq, List.length_append,
      beEncode_length, length_flatMap_beEncode, writeInt, true_and]
    omega

/-- Witness for `parse_write_roundtrip`: concrete round-trips for an integer, a
bool, an f64 bit pattern, a u16-prefixed string, a map, and a filter record. -/
theorem parse_write_roundtrip_witness :
    parseInt 4 ⟨writeInt 4 66051 ++ [9], 0⟩ = .ok (66051, ⟨writeInt 4 66051 ++ [9], 4⟩) ∧
    parseBool ⟨writeBool true ++ [7], 0⟩ = .ok (true, ⟨writeBool true ++ [7], 1⟩) ∧
    parseDouble ⟨writeDouble 4611686018427387905 ++ [], 0⟩ =
      .ok (4611686018427387905, ⟨writeDouble 4611686018427387905 ++ [], 8⟩) ∧
    parseDiskString 2 ⟨[0, 2, 97, 98] ++ [7], 0⟩ =
      .ok ([97, 98], ⟨[0, 2, 97, 98] ++ [7], 4⟩) ∧
    parseDiskHashInts 4 4 8 ⟨[0,0,0,1, 0,0,0,5, 0,0,0,0,0,0,0,9] ++ [], 0⟩ =
      .ok ([(5, 9)], ⟨[0,0,0,1, 0,0,0,5, 0,0,0,0,0,0,0,9] ++ [], 16⟩) ∧
    parseFilter ⟨[0,0,0,3, 0,0,0,1, 17,34,51,68,85,102,119,136] ++ [], 0⟩ =
      .ok (⟨3, [0x1122334455667788]⟩,
        ⟨[0,0,0,3, 0,0,0,1, 17,34,51,68,85,102,119,136] ++ [], 16⟩) := by
  refine ⟨parse_write_roundtrip.1 4 66051 [9] (by norm_num) (by norm_num),
    parse_write_roundtrip.2.2.1 true [7],
    parse_write_roundtrip.2.2.2.1 4611686018427387905 [] (by norm_num),
    parse_write_roundtrip.2.2.2.2.1 2 [97, 98] [0, 2, 97, 98] [7] (by norm_num) (by rfl),
    parse_write_roundtrip.2.2.2.2.2.2.2.1 4 4 8 [(5, 9)]
      [0,0,0,1, 0,0,0,5, 0,0,0,0,0,0,0,9] [] (by norm_num) (by norm_num) (by norm_num)
      (by decide) (by decide) (by rfl),
    parse_write_roundtrip.2.2.2.2.2.2.2.2.2 ⟨3, [0x1122334455667788]⟩
      [0,0,0,3, 0,0,0,1, 17,34,51,68,85,102,119,136] [] (by norm_num) (by decide) (by rfl)⟩

theorem parseInt_ok_inv {w : Nat} {r r' : Reader} {v : Nat} (hw0 : 0 < w)
    (h : parseInt w r = .ok (v, r')) :
    v = readInteger ((r.file.drop r.pos).take w) w ∧
    r' = ⟨r.file, r.pos + w⟩ ∧ r.pos + w ≤ r.file.length := by
  unfold parseInt readExactly checkBufSize at h
  dsimp only at h
  by_cases hlt : ((r.file.drop r.pos).take w).length < w
  · rw [if_pos hlt] at h
    simp at h
  · rw [if_neg hlt] at h
    simp only [Except.ok.injEq, Prod.mk.injEq] at h
    have hlen : ((r.file.drop r.pos).take w).length = min w (r.file.length - r.pos) := by
      rw [List.length_take, List.length_drop]
    rw [hlen] at hlt
    have hw : r.pos + w ≤ r.file.length := by omega
    refine ⟨h.1.symm, ?_, hw⟩
    rw [← h.2]
    congr 1
    omega

theorem parseSummaryHeaderFields_ok_inv {r r' : Reader} {h : SummaryHeader}
    (hp : parseSummaryHeaderFields r = .ok (h, r')) :
    h.min_index_interval = readInteger ((r.file.drop r.pos).take 4) 4 ∧
    h.size = readInteger ((r.file.drop (r.pos + 4)).take 4) 4 ∧
    h.memory_size = readInteger ((r.file.drop (r.pos + 8)).take 8) 8 ∧
    h.sampling_level = readInteger ((r.file.drop (r.pos + 16)).take 4) 4 ∧
    h.size_at_full_sampling = readInteger ((r.file.drop (r.pos + 20)).take 4) 4 ∧
    r' = ⟨r.file, r.pos + 24⟩ := by
  unfold parseSummaryHeaderFields at hp
  rcases h1 : parseInt 4 r with e | ⟨mii, r1⟩ <;> simp only [h1] at hp
  · exact Except.noConfusion hp
  rcases h2 : parseInt 4 r1 with e | ⟨sz, r2⟩ <;> simp only [h2] at hp
  · exact Except.noConfusion hp
  rcases h3 : parseInt 8 r2 with e | ⟨ms, r3⟩ <;> simp only [h3] at hp
  · exact Except.noConfusion hp
  rcases h4 : parseInt 4 r3 with e | ⟨sl, r4⟩ <;> simp only [h4] at hp
  · exact Except.noConfusion hp
  rcases h5 : parseInt 4 r4 with e | ⟨safs, r5⟩ <;> simp only [h5] at hp
  · exact Except.noConfusion hp
  simp only [Except.ok.injEq, Prod.mk.injEq] at hp
  obtain ⟨hh, hr⟩ := hp
  obtain ⟨v1, e1, _⟩ := parseInt_ok_inv (by norm_num) h1
  subst e1
  obtain ⟨v2, e2, _⟩ := parseInt_ok_inv (by norm_num) h2
  subst e2
  obtain ⟨v3, e3, _⟩ := parseInt_ok_inv (by norm_num) h3
  subst e3
  obtain ⟨v4, e4, _⟩ := parseInt_ok_inv (by norm_num) h4
  subst e4
  obtain ⟨v5, e5, _⟩ := parseInt_ok_inv (by norm_num) h5
  subst e5
  subst hh
  refine ⟨v1, ?_, ?_, ?_, ?_, ?_⟩ <;>
    simp_all [Nat.add_assoc]

theorem parseInt_file_eq {w : Nat} {r r' : Reader} {v : Nat}
    (h : parseInt w r = .ok (v, r')) : r'.file = r.file := by
  unfold parseInt readExactly checkBufSize at h
  dsimp only at h
  by_cases hlt : ((r.file.drop r.pos).take w).length < w
  · rw [if_pos hlt] at h
    exact Except.noConfusion h
  · rw [if_neg hlt] at h
    simp only [Except.ok.injEq, Prod.mk.injEq] at h
    rw [← h.2]

theorem parseDiskString_file_eq {w : Nat} {r r' : Reader} {v : List Nat}
    (h : parseDiskString w r = .ok (v, r')) : r'.file = r.file := by
  unfold parseDiskString at h
  rcases hl : parseInt w r with e | ⟨len, r₁⟩ <;> simp only [hl] at h
  · exact Except.noConfusion h
  unfold readExactly checkBufSize at h
  dsimp only at h
  by_cases hlt : ((r₁.file.drop r₁.pos).take len).length < len
  · rw [if_pos hlt] at h
    exact Except.noConfusion h
  · rw [if_neg hlt] at h
    simp only [Except.ok.injEq, Prod.mk.injEq] at h
    rw [← h.2, ← parseInt_file_eq hl]

theorem pbuf_chunk (file : List Nat) (sz i : Nat) (hi : i < sz) :
    (((file.drop 24).take (sz * 4)).drop (4 * i)).take 4 = (file.drop (24 + 4 * i)).take 4 := by
  rw [List.drop_take, List.take_take, List.drop_drop]
  have h4 : 4 * i + 4 ≤ sz * 4 := by
    have h1 : i + 1 ≤ sz := hi
    have h2 : (i + 1) * 4 ≤ sz * 4 := Nat.mul_le_mul_right 4 h1
    omega
  rw [Nat.min_eq_left (by omega)]

theorem parseSummaryCore_inv {file : List Nat} {s : Summary} {r : Reader}
    (h : parseSummaryCore ⟨file, 0⟩ = .ok (s, r)) :
    s.header.min_index_interval = readInteger (file.take 4) 4 ∧
    s.header.size = readInteger ((file.drop 4).take 4) 4 ∧
    s.header.memory_size = readInteger ((file.drop 8).take 8) 8 ∧
    s.header.sampling_level = readInteger ((file.drop 16).take 4) 4 ∧
    s.header.size_at_full_sampling = readInteger ((file.drop 20).take 4) 4 ∧
    s.positions.length = s.header.size + 1 ∧
    (∀ i, i < s.header.size →
      s.positions.getD i 0 = leDecode ((file.drop (24 + 4 * i)).take 4)) ∧
    s.positions.getD s.header.size 0 = s.header.memory_size % 2 ^ 32 ∧
    parseSummaryEntries s.positions 0 s.header.size ⟨file, s.positions.getD 0 0 + 24⟩ =
      .ok (s.entries, r) := by
  unfold parseSummaryCore at h
  rcases hh : parseSummaryHeaderFields ⟨file, 0⟩ with e | ⟨hd, r1⟩ <;> simp only [hh] at h
  · exact Except.noConfusion h
  obtain ⟨e1, e2, e3, e4, e5, hr1⟩ := parseSummaryHeaderFields_ok_inv hh
  simp only [Nat.zero_add] at e1 e2 e3 e4 e5 hr1
  subst hr1
  unfold readExactly at h
  dsimp only at h
  unfold checkBufSize at h
  by_cases hbuf : ((file.drop 24).take (hd.size * 4)).length < hd.size * 4
  · rw [if_pos hbuf] at h
    exact Except.noConfusion h
  rw [if_neg hbuf] at h
  simp only [Reader.seek] at h
  rcases hfk : parseDiskString 4 ⟨file, 24 + hd.memory_size⟩ with e | ⟨fk, r4⟩ <;>
    simp only [hfk] at h
  · exact Except.noConfusion h
  rcases hlk : parseDiskString 4 r4 with e | ⟨lk, r5⟩ <;> simp only [hlk] at h
  · exact Except.noConfusion h
  have hlen : ((List.range hd.size).map
      (fun i => leDecode ((((file.drop 24).take (hd.size * 4)).drop (4 * i)).take 4)) ++
        [hd.memory_size % 2 ^ 32]).length = hd.size + 1 := by
    simp
  rw [if_pos hlen] at h
  have hfile5 : r5.file = file := by
    rw [parseDiskString_file_eq hlk, parseDiskString_file_eq hfk]
  rw [hfile5] at h
  rcases hpe : parseSummaryEntries
      ((List.range hd.size).map
        (fun i => leDecode ((((file.drop 24).take (hd.size * 4)).drop (4 * i)).take 4)) ++
          [hd.memory_size % 2 ^ 32]) 0 hd.size
      ⟨file, (((List.range hd.size).map
        (fun i => leDecode ((((file.drop 24).take (hd.size * 4)).drop (4 * i)).take 4)) ++
          [hd.memory_size % 2 ^ 32]).getD 0 0) + 24⟩ with e | ⟨entries, r7⟩ <;>
    simp only [hpe] at h
  · exact Except.noConfusion h
  simp only [Except.ok.injEq, Prod.mk.injEq] at h
  obtain ⟨hs, hr⟩ := h
  subst hs
  subst hr
  refine ⟨e1, e2, e3, e4, e5, by simp, ?_, ?_, ?_⟩
  · intro i hi
    have hgd : (((List.range hd.size).map
        (fun i => leDecode ((((file.drop 24).take (hd.size * 4)).drop (4 * i)).take 4)) ++
          [hd.memory_size % 2 ^ 32]).getD i 0) =
        leDecode ((((file.drop 24).take (hd.size * 4)).drop (4 * i)).take 4) := by
      rw [List.getD_append _ _ _ i (by simp [hi])]
      rw [List.getD_eq_getElem?_getD, List.getElem?_eq_getElem (by simp [hi])]
      simp
    dsimp only
    rw [hgd, pbuf_chunk file hd.size i hi]
  · dsimp only
    rw [List.getD_append_right _ _ _ _ (by simp)]
    simp
  · exact hpe

/-- C7: the summary `positions` table is decoded in native memory order — each
of the `header.size` consecutive u32 values is the little-endian value of its
four bytes — while the scalars of the format are big-endian: the five header
fields decode through `readInteger`, and `readInteger` (the single scalar
decoder every other parser of the codec delegates to) is the big-endian value
of the bytes it reads, whereas `leDecode` reads the bytes reversed. -/
theorem summary_positions_native {file : List Nat} {s : Summary} {r : Reader}
    (h : parseSummaryCore ⟨file, 0⟩ = .ok (s, r)) :
    (∀ i, i < s.header.size →
      s.positions.getD i 0 = leDecode ((file.drop (24 + 4 * i)).take 4)) ∧
    s.header.min_index_interval = readInteger (file.take 4) 4 ∧
    s.header.size = readInteger ((file.drop 4).take 4) 4 ∧
    s.header.memory_size = readInteger ((file.drop 8).take 8) 8 ∧
    s.header.sampling_level = readInteger ((file.drop 16).take 4) 4 ∧
    s.header.size_at_full_sampling = readInteger ((file.drop 20).take 4) 4 ∧
    (∀ (buf : List Nat) (w : Nat), readInteger buf w = beValue (buf.take w)) ∧
    (∀ b0 b1 b2 b3 : Nat, leDecode [b0, b1, b2, b3] = beValue [b3, b2, b1, b0]) := by
  obtain ⟨e1, e2, e3, e4, e5, _, hpos, _, _⟩ := parseSummaryCore_inv h
  refine ⟨hpos, e1, e2, e3, e4, e5, readInteger_eq_beValue, ?_⟩
  intro b0 b1 b2 b3
  rw [leDecode_eq_beValue_reverse]
  rfl

/-- Witness for `summary_positions_native`: on `sampleSummaryFile` the decoded
position is the little-endian value `4` of the bytes `04 00 00 00`, which the
big-endian decoder would read as `2^26`. -/
theorem summary_positions_native_witness :
    ∃ (s : Summary) (r : Reader),
      parseSummaryCore ⟨sampleSummaryFile, 0⟩ = .ok (s, r) ∧
      (∀ i, i < s.header.size →
        s.positions.getD i 0 = leDecode ((sampleSummaryFile.drop (24 + 4 * i)).take 4)) ∧
      leDecode [4, 0, 0, 0] = 4 ∧ readInteger [4, 0, 0, 0] 4 ≠ 4 := by
  have hp : parseSummaryCore ⟨sampleSummaryFile, 0⟩ =
      .ok (⟨⟨128, 1, 13, 128, 1⟩, [4, 13], [⟨[107], 500⟩], [107], [107]⟩,
        ⟨sampleSummaryFile, 37⟩) := by
    rfl
  exact ⟨_, _, hp, (summary_positions_native hp).1, by rfl, by decide⟩

theorem parseSummaryEntries_spec (file positions : List Nat)
    (hlt : ∀ j, j < positions.length → positions.getD j 0 < 2 ^ 32) :
    ∀ (n idx : Nat) (es : List SummaryEntry) (r' : Reader),
      idx + n + 1 ≤ positions.length →
      (∀ j, j < n → positions.getD (idx + j) 0 + 8 ≤ positions.getD (idx + j + 1) 0) →
      parseSummaryEntries positions idx n ⟨file, 24 + positions.getD idx 0⟩ = .ok (es, r') →
      es.length = n ∧
      ∀ j, j < n → es.getD j default =
        specSummaryEntry file (positions.getD (idx + j) 0) (positions.getD (idx + j + 1) 0) := by
  intro n
  induction n with
  | zero =>
    intro idx es r' _ _ hp
    unfold parseSummaryEntries at hp
    simp only [Except.ok.injEq, Prod.mk.injEq] at hp
    obtain ⟨hes, _⟩ := hp
    subst hes
    exact ⟨rfl, fun j hj => absurd hj (by omega)⟩
  | succ n ih =>
    intro idx es r' hbound hgap hp
    unfold parseSummaryEntries at hp
    dsimp only at hp
    have hpq : positions.getD idx 0 + 8 ≤ positions.getD (idx + 1) 0 := by
      have h := hgap 0 (by omega)
      simpa using h
    have hplt : positions.getD idx 0 < 2 ^ 32 := hlt idx (by omega)
    have hqlt : positions.getD (idx + 1) 0 < 2 ^ 32 := hlt (idx + 1) (by omega)
    have hsub : sub32 (positions.getD (idx + 1) 0) (positions.getD idx 0) =
        positions.getD (idx + 1) 0 - positions.getD idx 0 := by
      unfold sub32
      omega
    rw [hsub] at hp
    unfold readExactly checkBufSize at hp
    dsimp only at hp
    by_cases hbuflt : ((file.drop (24 + positions.getD idx 0)).take
        (positions.getD (idx + 1) 0 - positions.getD idx 0)).length <
        positions.getD (idx + 1) 0 - positions.getD idx 0
    · rw [if_pos hbuflt] at hp
      exact Except.noConfusion hp
    rw [if_neg hbuflt] at hp
    have hbl : ((file.drop (24 + positions.getD idx 0)).take
        (positions.getD (idx + 1) 0 - positions.getD idx 0)).length =
        min (positions.getD (idx + 1) 0 - positions.getD idx 0)
          (file.length - (24 + positions.getD idx 0)) := by
      simp [List.length_take, List.length_drop]
    rw [hbl] at hbuflt
    have hpos24 : min (24 + positions.getD idx 0 +
        (positions.getD (idx + 1) 0 - positions.getD idx 0)) file.length =
        24 + positions.getD (idx + 1) 0 := by
      omega
    rw [hpos24] at hp
    rcases hrec : parseSummaryEntries positions (idx + 1) n
        ⟨file, 24 + positions.getD (idx + 1) 0⟩ with e | ⟨esr, r₂⟩ <;> simp only [hrec] at hp
    · exact Except.noConfusion hp
    simp only [Except.ok.injEq, Prod.mk.injEq] at hp
    obtain ⟨hes, hr⟩ := hp
    subst hr
    have hg' : ∀ j, j < n →
        positions.getD (idx + 1 + j) 0 + 8 ≤ positions.getD (idx + 1 + j + 1) 0 := by
      intro j hj
      have h := hgap (j + 1) (by omega)
      rwa [show idx + (j + 1) = idx + 1 + j from by omega] at h
    obtain ⟨ihlen, ihspec⟩ := ih (idx + 1) esr r₂ (by omega) hg' hrec
    subst hes
    refine ⟨by simp [ihlen], ?_⟩
    intro j hj
    cases j with
    | zero =>
      have hks : sub32 (positions.getD (idx + 1) 0 - positions.getD idx 0) 8 =
          positions.getD (idx + 1) 0 - positions.getD idx 0 - 8 := by
        unfold sub32
        omega
      rw [hks]
      simp only [List.getD_cons_zero, specSummaryEntry, Nat.add_zero]
    | succ j' =>
      rw [List.getD_cons_succ]
      have h := ihspec j' (by omega)
      rwa [show idx + 1 + j' = idx + (j' + 1) from by omega] at h

theorem cexSummaryFile_length : cexSummaryFile.length = 2 ^ 32 + 32 := by
  simp only [cexSummaryFile, List.length_append, List.length_replicate]
  norm_num

theorem parseSummaryHeaderFields_build {file : List Nat} {a b c d e : Nat}
    (h1 : parseInt 4 ⟨file, 0⟩ = .ok (a, ⟨file, 4⟩))
    (h2 : parseInt 4 ⟨file, 4⟩ = .ok (b, ⟨file, 8⟩))
    (h3 : parseInt 8 ⟨file, 8⟩ = .ok (c, ⟨file, 16⟩))
    (h4 : parseInt 4 ⟨file, 16⟩ = .ok (d, ⟨file, 20⟩))
    (h5 : parseInt 4 ⟨file, 20⟩ = .ok (e, ⟨file, 24⟩)) :
    parseSummaryHeaderFields ⟨file, 0⟩ = .ok (⟨a, b, c, d, e⟩, ⟨file, 24⟩) := by
  unfold parseSummaryHeaderFields
  rw [h1]
  simp only [h2, h3, h4, h5]

theorem cexSummaryFile_header :
    parseSummaryHeaderFields ⟨cexSummaryFile, 0⟩ =
      .ok (⟨0, 0, 2 ^ 32, 0, 0⟩, ⟨cexSummaryFile, 24⟩) := by
  have hlen := cexSummaryFile_length
  have h1 : parseInt 4 ⟨cexSummaryFile, 0⟩ = .ok (0, ⟨cexSummaryFile, 4⟩) := by
    rw [@parseInt_of_drop cexSummaryFile [0, 0, 0, 0] (cexSummaryFile.drop 4) 0 4
      rfl rfl (by omega)]
    norm_num [readInteger]
  have h2 : parseInt 4 ⟨cexSummaryFile, 4⟩ = .ok (0, ⟨cexSummaryFile, 8⟩) := by
    rw [@parseInt_of_drop cexSummaryFile [0, 0, 0, 0] (cexSummaryFile.drop 8) 4 4
      rfl rfl (by omega)]
    norm_num [readInteger]
  have h3 : parseInt 8 ⟨cexSummaryFile, 8⟩ = .ok (2 ^ 32, ⟨cexSummaryFile, 16⟩) := by
    rw [@parseInt_of_drop cexSummaryFile [0, 0, 0, 1, 0, 0, 0, 0] (cexSummaryFile.drop 16) 8 8
      rfl rfl (by omega)]
    norm_num [readInteger]
  have h4 : parseInt 4 ⟨cexSummaryFile, 16⟩ = .ok (0, ⟨cexSummaryFile, 20⟩) := by
    rw [@parseInt_of_drop cexSummaryFile [0, 0, 0, 0] (cexSummaryFile.drop 20) 16 4
      rfl rfl (by omega)]
    norm_num [readInteger]
  have h5 : parseInt 4 ⟨cexSummaryFile, 20⟩ = .ok (0, ⟨cexSummaryFile, 24⟩) := by
    rw [@parseInt_of_drop cexSummaryFile [0, 0, 0, 0] (cexSummaryFile.drop 24) 20 4
      rfl rfl (by omega)]
    norm_num [readInteger]
  exact parseSummaryHeaderFields_build h1 h2 h3 h4 h5


theorem parseSummaryCore_size0 {file : List Nat} {hd : SummaryHeader}
    {fk lk : List Nat} {r4 r5 : Reader}
    (hh : parseSummaryHeaderFields ⟨file, 0⟩ = .ok (hd, ⟨file, 24⟩))
    (hsz : hd.size = 0) (h24 : 24 ≤ file.length)
    (hfk : parseDiskString 4 ⟨file, 24 + hd.memory_size⟩ = .ok (fk, r4))
    (hlk : parseDiskString 4 r4 = .ok (lk, r5)) :
    parseSummaryCore ⟨file, 0⟩ =
      .ok (⟨hd, [hd.memory_size % 2 ^ 32], [], fk, lk⟩,
           ⟨file, hd.memory_size % 2 ^ 32 + 24⟩) := by
  have hr5 : r5.file = file := by
    rw [parseDiskString_file_eq hlk, parseDiskString_file_eq hfk]
  unfold parseSummaryCore
  rw [hh]
  unfold readExactly checkBufSize Reader.seek
  dsimp only
  simp only [hsz, Nat.zero_mul, List.take_zero, List.length_nil, Nat.lt_irrefl, if_false,
    Nat.add_zero, Nat.min_eq_left h24, List.range_zero, List.map_nil, List.nil_append,
    hfk, hlk, hr5, List.getD_cons_zero, List.length_cons, Nat.zero_add, if_pos,
    parseSummaryEntries]

theorem cexSummaryFile_drop_keys :
    cexSummaryFile.drop (24 + 2 ^ 32) = [0, 0, 0, 0, 0, 0, 0, 0] := by
  have h := @List.drop_append Nat
    ([0,0,0,0, 0,0,0,0, 0,0,0,1,0,0,0,0, 0,0,0,0, 0,0,0,0] : List Nat)
    (List.replicate (2 ^ 32 + 8) 0) (2 ^ 32)
  rw [List.drop_replicate] at h
  rw [show (2 ^ 32 + 8) - 2 ^ 32 = 8 from by omega] at h
  exact h

/-- C1 counterexample: a parseable summary file whose header carries
`memory_size = 2^32`.  The parser pushes `memory_size` onto the
`vector<uint32_t>` positions table, so the synthetic trailing position is the
truncated value `0`, not `memory_size` as the claim states. -/
theorem summary_trailing_position_truncation_cex :
    parseSummaryCore ⟨cexSummaryFile, 0⟩ =
      .ok (cexSummaryResult, ⟨cexSummaryFile, 24⟩) ∧
    cexSummaryResult.header.memory_size = 2 ^ 32 ∧
    cexSummaryResult.positions = [0] ∧
    cexSummaryResult.positions ≠ [cexSummaryResult.header.memory_size] := by
  have hlen := cexSummaryFile_length
  have hdrop := cexSummaryFile_drop_keys
  have hd1 : cexSummaryFile.drop (24 + 2 ^ 32) =
      beEncode 4 (List.length ([] : List Nat)) ++ (([] : List Nat) ++ [0, 0, 0, 0]) := by
    rw [hdrop]
    rfl
  have hfk := @parseDiskString_of_drop cexSummaryFile [] [0, 0, 0, 0] (24 + 2 ^ 32) 4
    hd1 (by norm_num) (by norm_num)
  have hdrop2 : cexSummaryFile.drop (24 + 2 ^ 32 + 4 + 0) = [0, 0, 0, 0] := by
    have h := congrArg (List.drop 4) hdrop
    rw [List.drop_drop] at h
    exact h
  have hd2 : cexSummaryFile.drop (24 + 2 ^ 32 + 4 + 0) =
      beEncode 4 (List.length ([] : List Nat)) ++ (([] : List Nat) ++ []) := by
    rw [hdrop2]
    rfl
  have hlk := @parseDiskString_of_drop cexSummaryFile [] [] (24 + 2 ^ 32 + 4 + 0) 4
    hd2 (by norm_num) (by norm_num)
  have hcore := parseSummaryCore_size0 cexSummaryFile_header rfl (by omega) hfk hlk
  refine ⟨?_, rfl, rfl, by decide⟩
  rw [hcore]
  simp [cexSummaryResult, Nat.mod_self]

/-- C1 (amended): parsing a summary file follows the five-step protocol: after
the five-field header and the `header.size`-entry positions table, a synthetic
trailing position equal to `header.memory_size` TRUNCATED TO 32 BITS
(`memory_size mod 2^32` — the table is a `vector<uint32_t>`; the value equals
`memory_size` whenever it fits in 32 bits) is appended, so `positions` has
`entries.length + 1` elements, which the reader asserts before entry
iteration; then for every entry index `i` exactly
`positions[i+1] - positions[i]` bytes are read, the trailing 8 of them
big-endian-decode to `entry.position` and the preceding bytes become
`entry.key`; after all entries are materialized the positions table is emptied.
Stated for entry spans of at least 8 bytes, which the claim's phrasing
presupposes. -/
theorem summary_five_step_protocol {file : List Nat} {s : Summary} {r : Reader}
    (h : parseSummaryCore ⟨file, 0⟩ = .ok (s, r))
    (hgap : ∀ j, j + 1 < s.positions.length →
      s.positions.getD j 0 + 8 ≤ s.positions.getD (j + 1) 0) :
    s.positions.length = s.entries.length + 1 ∧
    s.positions.getD s.entries.length 0 = s.header.memory_size % 2 ^ 32 ∧
    (∀ j, j < s.entries.length → s.entries.getD j default =
      specSummaryEntry file (s.positions.getD j 0) (s.positions.getD (j + 1) 0)) ∧
    parseSummary ⟨file, 0⟩ = .ok ({ s with positions := [] }, r) := by
  obtain ⟨e1, e2, e3, e4, e5, hplen, hchunks, hlast, hpe⟩ := parseSummaryCore_inv h
  have hlt : ∀ j, j < s.positions.length → s.positions.getD j 0 < 2 ^ 32 := by
    intro j hj
    rcases Nat.lt_or_ge j s.header.size with hjs | hjs
    · rw [hchunks j hjs]
      have hle := leDecode_lt ((file.drop (24 + 4 * j)).take 4)
      have hlen4 : ((file.drop (24 + 4 * j)).take 4).length ≤ 4 := by
        simp [List.length_take]
      calc leDecode ((file.drop (24 + 4 * j)).take 4)
          < 256 ^ ((file.drop (24 + 4 * j)).take 4).length := hle
        _ ≤ 256 ^ 4 := Nat.pow_le_pow_right (by norm_num) hlen4
        _ = 2 ^ 32 := by norm_num
    · have hj' : j = s.header.size := by omega
      rw [hj', hlast]
      exact Nat.mod_lt _ (by norm_num)
  have hpe' : parseSummaryEntries s.positions 0 s.header.size
      ⟨file, 24 + s.positions.getD 0 0⟩ = .ok (s.entries, r) := by
    rwa [Nat.add_comm] at hpe
  obtain ⟨hlen, hspec⟩ := parseSummaryEntries_spec file s.positions hlt s.header.size 0
    s.entries r (by omega) (fun j hj => by simpa using hgap j (by omega)) hpe'
  refine ⟨by omega, ?_, ?_, ?_⟩
  · rw [hlen, hlast]
  · intro j hj
    have hs := hspec j (by omega)
    simpa using hs
  · unfold parseSummary
    rw [h]

/-- Witness for `summary_five_step_protocol`: the one-entry summary file, whose
positions table is `[4, 13]`, whose single entry occupies bytes `[4, 13)` of
the memory stream (key `"k"`, position 500), and whose parsed summary carries
an empty positions table. -/
theorem summary_five_step_protocol_witness :
    ∃ (s : Summary) (r : Reader),
      parseSummaryCore ⟨sampleSummaryFile, 0⟩ = .ok (s, r) ∧
      s.positions.length = s.entries.length + 1 ∧
      s.positions.getD s.entries.length 0 = s.header.memory_size % 2 ^ 32 ∧
      (∀ j, j < s.entries.length → s.entries.getD j default =
        specSummaryEntry sampleSummaryFile (s.positions.getD j 0)
          (s.positions.getD (j + 1) 0)) ∧
      parseSummary ⟨sampleSummaryFile, 0⟩ = .ok ({ s with positions := [] }, r) := by
  have hp : parseSummaryCore ⟨sampleSummaryFile, 0⟩ =
      .ok (⟨⟨128, 1, 13, 128, 1⟩, [4, 13], [⟨[107], 500⟩], [107], [107]⟩,
        ⟨sampleSummaryFile, 37⟩) := by
    rfl
  have hgap : ∀ j, j + 1 <
      (([4, 13] : List Nat)).length →
      ([4, 13] : List Nat).getD j 0 + 8 ≤ ([4, 13] : List Nat).getD (j + 1) 0 := by
    intro j hj
    simp only [List.length_cons, List.length_nil] at hj
    have hj0 : j = 0 := by omega
    subst hj0
    decide
  obtain ⟨c1, c2, c3, c4⟩ := summary_five_step_protocol hp hgap
  exact ⟨_, _, hp, c1, c2, c3, c4⟩

theorem contentsStore_mem {m : List (Nat × MetadataBody)} {k : Nat} {v : MetadataBody} :
    ∀ tb ∈ contentsStore m k v, tb ∈ m ∨ tb = (k, v) := by
  induction m with
  | nil =>
    intro tb htb
    simp only [contentsStore, List.mem_singleton] at htb
    exact Or.inr htb
  | cons p tl ih =>
    intro tb htb
    unfold contentsStore at htb
    by_cases hk : p.1 = k
    · rw [if_pos hk] at htb
      rcases List.mem_cons.mp htb with h | h
      · exact Or.inr h
      · exact Or.inl (List.mem_cons_of_mem _ h)
    · rw [if_neg hk] at htb
      rcases List.mem_cons.mp htb with h | h
      · exact Or.inl (h ▸ List.mem_cons_self p tl)
      · rcases ih tb h with h' | h'
        · exact Or.inl (List.mem_cons_of_mem _ h')
        · exact Or.inr h'

theorem contentsStore_mem_self (m : List (Nat × MetadataBody)) (k : Nat) (v : MetadataBody) :
    (k, v) ∈ contentsStore m k v := by
  induction m with
  | nil => simp [contentsStore]
  | cons p tl ih =>
    unfold contentsStore
    by_cases hk : p.1 = k
    · rw [if_pos hk]
      exact List.mem_cons_self _ _
    · rw [if_neg hk]
      exact List.mem_cons_of_mem _ ih

theorem contentsStore_preserves {m : List (Nat × MetadataBody)} {t : Nat} {b : MetadataBody}
    (k : Nat) (v : MetadataBody) (h : (t, b) ∈ m) :
    ∃ b', (t, b') ∈ contentsStore m k v := by
  induction m with
  | nil => cases h
  | cons p tl ih =>
    unfold contentsStore
    by_cases hk : p.1 = k
    · rw [if_pos hk]
      rcases List.mem_cons.mp h with h' | h'
      · subst h'
        simp only at hk
        exact ⟨v, hk ▸ List.mem_cons_self _ _⟩
      · exact ⟨b, List.mem_cons_of_mem _ h'⟩
    · rw [if_neg hk]
      rcases List.mem_cons.mp h with h' | h'
      · exact ⟨b, h' ▸ List.mem_cons_self p _⟩
      · obtain ⟨b', hb'⟩ := ih h'
        exact ⟨b', List.mem_cons_of_mem _ hb'⟩

theorem statsDispatch_inv (file : List Nat) (entries : List (Nat × Nat)) :
    ∀ (cont cont' : List (Nat × MetadataBody)) (log log' : List Nat),
      statsDispatch file entries cont log = .ok (cont', log') →
      (∀ tb ∈ cont', tb ∈ cont ∨
        ∃ off, (tb.1, off) ∈ entries ∧ bodyParsedAt file tb.1 off tb.2) ∧
      (∀ tag off, (tag, off) ∈ entries → 3 ≤ tag → tag ∈ log') ∧
      (∀ tag ∈ log', tag ∈ log ∨ (3 ≤ tag ∧ ∃ off, (tag, off) ∈ entries)) ∧
      (∀ tag off, (tag, off) ∈ entries → tag < 3 → ∃ b, (tag, b) ∈ cont') ∧
      (∀ t b, (t, b) ∈ cont → ∃ b', (t, b') ∈ cont') ∧
      (∀ t ∈ log, t ∈ log') := by
  induction entries with
  | nil =>
    intro cont cont' log log' h
    unfold statsDispatch at h
    simp only [Except.ok.injEq, Prod.mk.injEq] at h
    obtain ⟨hc, hl⟩ := h
    subst hc
    subst hl
    exact ⟨fun tb htb => Or.inl htb, fun tag off hmem => absurd hmem (List.not_mem_nil _),
      fun tag htag => Or.inl htag, fun tag off hmem => absurd hmem (List.not_mem_nil _),
      fun t b htb => ⟨b, htb⟩, fun t ht => ht⟩
  | cons p rest ih =>
    intro cont cont' log log' h
    unfold statsDispatch at h
    by_cases h0 : p.1 = 0
    · rw [if_pos h0] at h
      rcases hv : parseValidationMetadata ⟨file, p.2⟩ with e | ⟨v, rv⟩ <;> simp only [hv] at h
      · exact Except.noConfusion h
      obtain ⟨hA, hB, hC, hD, hE, hF⟩ := ih _ _ _ _ h
      refine ⟨?_, ?_, ?_, ?_, ?_, hF⟩
      · intro tb htb
        rcases hA tb htb with hin | ⟨off, hoff, hbd⟩
        · rcases contentsStore_mem tb hin with hin' | heq
          · exact Or.inl hin'
          · subst heq
            refine Or.inr ⟨p.2, ?_, ?_⟩
            · simp only
              exact Prod.mk.eta ▸ List.mem_cons_self p rest
            · exact Or.inl ⟨h0, v, rv, hv, rfl⟩
        · exact Or.inr ⟨off, List.mem_cons_of_mem _ hoff, hbd⟩
      · intro tag off hmem htag
        rcases List.mem_cons.mp hmem with heq | hmem'
        · have ht : tag = p.1 := congrArg Prod.fst heq
          omega
        · exact hB tag off hmem' htag
      · intro tag htag
        rcases hC tag htag with h' | ⟨h3, off, hoff⟩
        · exact Or.inl h'
        · exact Or.inr ⟨h3, off, List.mem_cons_of_mem _ hoff⟩
      · intro tag off hmem htag
        rcases List.mem_cons.mp hmem with heq | hmem'
        · have ht : tag = p.1 := congrArg Prod.fst heq
          obtain ⟨b', hb'⟩ := hE p.1 (.validation v) (contentsStore_mem_self _ _ _)
          exact ⟨b', ht ▸ hb'⟩
        · exact hD tag off hmem' htag
      · intro t b htb
        obtain ⟨b', hb'⟩ := contentsStore_preserves p.1 (.validation v) htb
        exact hE t b' hb'
    · rw [if_neg h0] at h
      by_cases h1 : p.1 = 1
      · rw [if_pos h1] at h
        rcases hv : parseCompactionMetadata ⟨file, p.2⟩ with e | ⟨v, rv⟩ <;> simp only [hv] at h
        · exact Except.noConfusion h
        obtain ⟨hA, hB, hC, hD, hE, hF⟩ := ih _ _ _ _ h
        refine ⟨?_, ?_, ?_, ?_, ?_, hF⟩
        · intro tb htb
          rcases hA tb htb with hin | ⟨off, hoff, hbd⟩
          · rcases contentsStore_mem tb hin with hin' | heq
            · exact Or.inl hin'
            · subst heq
              refine Or.inr ⟨p.2, ?_, ?_⟩
              · simp only
                exact Prod.mk.eta ▸ List.mem_cons_self p rest
              · exact Or.inr (Or.inl ⟨h1, v, rv, hv, rfl⟩)
          · exact Or.inr ⟨off, List.mem_cons_of_mem _ hoff, hbd⟩
        · intro tag off hmem htag
          rcases List.mem_cons.mp hmem with heq | hmem'
          · have ht : tag = p.1 := congrArg Prod.fst heq
            omega
          · exact hB tag off hmem' htag
        · intro tag htag
          rcases hC tag htag with h' | ⟨h3, off, hoff⟩
          · exact Or.inl h'
          · exact Or.inr ⟨h3, off, List.mem_cons_of_mem _ hoff⟩
        · intro tag off hmem htag
          rcases List.mem_cons.mp hmem with heq | hmem'
          · have ht : tag = p.1 := congrArg Prod.fst heq
            obtain ⟨b', hb'⟩ := hE p.1 (.compaction v) (contentsStore_mem_self _ _ _)
            exact ⟨b', ht ▸ hb'⟩
          · exact hD tag off hmem' htag
        · intro t b htb
          obtain ⟨b', hb'⟩ := contentsStore_preserves p.1 (.compaction v) htb
          exact hE t b' hb'
      · rw [if_neg h1] at h
        by_cases h2 : p.1 = 2
        · rw [if_pos h2] at h
          rcases hv : parseStatsMetadata ⟨file, p.2⟩ with e | ⟨v, rv⟩ <;> simp only [hv] at h
          · exact Except.noConfusion h
          obtain ⟨hA, hB, hC, hD, hE, hF⟩ := ih _ _ _ _ h
          refine ⟨?_, ?_, ?_, ?_, ?_, hF⟩
          · intro tb htb
            rcases hA tb htb with hin | ⟨off, hoff, hbd⟩
            · rcases contentsStore_mem tb hin with hin' | heq
              · exact Or.inl hin'
              · subst heq
                refine Or.inr ⟨p.2, ?_, ?_⟩
                · simp only
                  exact Prod.mk.eta ▸ List.mem_cons_self p rest
                · exact Or.inr (Or.inr ⟨h2, v, rv, hv, rfl⟩)
            · exact Or.inr ⟨off, List.mem_cons_of_mem _ hoff, hbd⟩
          · intro tag off hmem htag
            rcases List.mem_cons.mp hmem with heq | hmem'
            · have ht : tag = p.1 := congrArg Prod.fst heq
              omega
            · exact hB tag off hmem' htag
          · intro tag htag
            rcases hC tag htag with h' | ⟨h3, off, hoff⟩
            · exact Or.inl h'
            · exact Or.inr ⟨h3, off, List.mem_cons_of_mem _ hoff⟩
          · intro tag off hmem htag
            rcases List.mem_cons.mp hmem with heq | hmem'
            · have ht : tag = p.1 := congrArg Prod.fst heq
              obtain ⟨b', hb'⟩ := hE p.1 (.stats v) (contentsStore_mem_self _ _ _)
              exact ⟨b', ht ▸ hb'⟩
            · exact hD tag off hmem' htag
          · intro t b htb
            obtain ⟨b', hb'⟩ := contentsStore_preserves p.1 (.stats v) htb
            exact hE t b' hb'
        · rw [if_neg h2] at h
          obtain ⟨hA, hB, hC, hD, hE, hF⟩ := ih _ _ _ _ h
          refine ⟨?_, ?_, ?_, ?_, hE, ?_⟩
          · intro tb htb
            rcases hA tb htb with hin | ⟨off, hoff, hbd⟩
            · exact Or.inl hin
            · exact Or.inr ⟨off, List.mem_cons_of_mem _ hoff, hbd⟩
          · intro tag off hmem htag
            rcases List.mem_cons.mp hmem with heq | hmem'
            · have ht : tag = p.1 := congrArg Prod.fst heq
              subst ht
              exact hF p.1 (List.mem_append.mpr (Or.inr (List.mem_singleton.mpr rfl)))
            · exact hB tag off hmem' htag
          · intro tag htag
            rcases hC tag htag with h' | ⟨h3, off, hoff⟩
            · rcases List.mem_append.mp h' with hl | hr
              · exact Or.inl hl
              · have ht : tag = p.1 := List.mem_singleton.mp hr
                subst ht
                exact Or.inr ⟨by omega, p.2, Prod.mk.eta ▸ List.mem_cons_self p rest⟩
            · exact Or.inr ⟨h3, off, List.mem_cons_of_mem _ hoff⟩
          · intro tag off hmem htag
            rcases List.mem_cons.mp hmem with heq | hmem'
            · have ht : tag = p.1 := congrArg Prod.fst heq
              omega
            · exact hD tag off hmem' htag
          · intro t ht
            exact hF t (List.mem_append.mpr (Or.inl ht))

theorem parseMapEntries_ints_file_eq (kw vw : Nat) :
    ∀ (n : Nat) (acc m : List (Nat × Nat)) (r r' : Reader),
      parseMapEntries (parseInt kw) (parseInt vw) n acc r = .ok (m, r') →
      r'.file = r.file := by
  intro n
  induction n with
  | zero =>
    intro acc m r r' h
    unfold parseMapEntries at h
    simp only [Except.ok.injEq, Prod.mk.injEq] at h
    rw [← h.2]
  | succ n ih =>
    intro acc m r r' h
    unfold parseMapEntries at h
    rcases hk : parseInt kw r with e | ⟨k, r₁⟩ <;> simp only [hk] at h
    · exact Except.noConfusion h
    rcases hv : parseInt vw r₁ with e | ⟨v, r₂⟩ <;> simp only [hv] at h
    · exact Except.noConfusion h
    rw [ih _ _ _ _ h, parseInt_file_eq hv, parseInt_file_eq hk]

theorem parseDiskHashInts_file_eq {sw kw vw : Nat} {m : List (Nat × Nat)} {r r' : Reader}
    (h : parseDiskHashInts sw kw vw r = .ok (m, r')) : r'.file = r.file := by
  unfold parseDiskHashInts parseDiskHashWith at h
  rcases hl : parseInt sw r with e | ⟨len, rl⟩ <;> simp only [hl] at h
  · exact Except.noConfusion h
  rw [parseMapEntries_ints_file_eq kw vw _ _ _ _ _ h, parseInt_file_eq hl]

/-- C4: parsing a statistics file reads the tag→offset map, then for each map
entry seeks to the recorded offset and parses a body selected by the tag —
tag 0 as validation, tag 1 as compaction, tag 2 as stats metadata, each stored
in the contents map keyed by its tag — while any other tag is logged at warn
level (collected in the returned log) and skipped: no entry appears in the
contents map for it and no error is raised (the parse still succeeds). -/
theorem statistics_dispatch {file : List Nat} {st : Statistics} {log : List Nat}
    (h : parseStatistics ⟨file, 0⟩ = .ok (st, log)) :
    (∀ tag off, (tag, off) ∈ st.hash → 3 ≤ tag →
      tag ∈ log ∧ ∀ b, (tag, b) ∉ st.contents) ∧
    (∀ tag b, (tag, b) ∈ st.contents →
      ∃ off, (tag, off) ∈ st.hash ∧ bodyParsedAt file tag off b) ∧
    (∀ tag off, (tag, off) ∈ st.hash → tag < 3 → ∃ b, (tag, b) ∈ st.contents) ∧
    (∀ tag, tag ∈ log → 3 ≤ tag ∧ ∃ off, (tag, off) ∈ st.hash) := by
  unfold parseStatistics at h
  rcases hh : parseDiskHashInts 4 4 4 ⟨file, 0⟩ with e | ⟨hsh, r₁⟩ <;> simp only [hh] at h
  · exact Except.noConfusion h
  have hfile : r₁.file = file := parseDiskHashInts_file_eq hh
  rcases hd : statsDispatch r₁.file hsh [] [] with e | ⟨cont, lg⟩ <;> simp only [hd] at h
  · exact Except.noConfusion h
  simp only [Except.ok.injEq, Prod.mk.injEq] at h
  obtain ⟨hst, hlog⟩ := h
  subst hst
  subst hlog
  rw [hfile] at hd
  obtain ⟨hA, hB, hC, hD, _, _⟩ := statsDispatch_inv file hsh _ _ _ _ hd
  refine ⟨?_, ?_, ?_, ?_⟩
  · intro tag off hmem htag
    constructor
    · exact hB tag off hmem htag
    · intro b hb
      rcases hA (tag, b) hb with hin | ⟨off', _, hbd⟩
      · exact absurd hin (List.not_mem_nil _)
      · rcases hbd with ⟨h0, _⟩ | ⟨h1, _⟩ | ⟨h2, _⟩ <;> omega
  · intro tag b hb
    rcases hA (tag, b) hb with hin | ⟨off, hoff, hbd⟩
    · exact absurd hin (List.not_mem_nil _)
    · exact ⟨off, hoff, hbd⟩
  · intro tag off hmem htag
    exact hD tag off hmem htag
  · intro tag htag
    rcases hC tag htag with hin | ⟨h3, off, hoff⟩
    · exact absurd hin (List.not_mem_nil _)
    · exact ⟨h3, off, hoff⟩

/-- Witness for `statistics_dispatch`: a statistics file carrying tag 0
(validation) and the unknown tag 99 parses successfully; 99 is warn-logged and
absent from the contents map, while tag 0 is present. -/
theorem statistics_dispatch_witness :
    ∃ (st : Statistics) (log : List Nat),
      parseStatistics ⟨sampleStatisticsFile, 0⟩ = .ok (st, log) ∧
      (99, 0) ∈ st.hash ∧ 99 ∈ log ∧ (∀ b, (99, b) ∉ st.contents) ∧
      ∃ b, (0, b) ∈ st.contents := by
  have hp : parseStatistics ⟨sampleStatisticsFile, 0⟩ =
      .ok (⟨[(0, 20), (99, 0)], [(0, .validation ⟨[112], 0⟩)]⟩, [99]) := by
    rfl
  refine ⟨_, _, hp, by decide, ?_, ?_, ?_⟩
  · exact ((statistics_dispatch hp).1 99 0 (by decide) (by norm_num)).1
  · exact ((statistics_dispatch hp).1 99 0 (by decide) (by norm_num)).2
  · exact (statistics_dispatch hp).2.2.1 0 20 (by decide) (by norm_num)

theorem parseIndexEntry_eof {file : List Nat} {pos : Nat} (hd : file.drop pos = []) :
    parseIndexEntry ⟨file, pos⟩ =
      .error (.underfullBuffer 0 2, ⟨file, file.length⟩) := by
  have hle : file.length ≤ pos := by
    have h := congrArg List.length hd
    simp only [List.length_drop, List.length_nil] at h
    omega
  unfold parseIndexEntry parseDiskString parseInt readExactly checkBufSize
  dsimp only
  rw [hd]
  simp [Nat.min_eq_right (by omega : file.length ≤ pos + 2)]

theorem parseIndexEntry_of_drop {file rest : List Nat} {pos : Nat} {e : IndexEntry}
    (hd : file.drop pos = indexEntryBytes e ++ rest)
    (hkey : e.key.length < 2 ^ 16) (hposn : e.position < 2 ^ 64)
    (hpi : e.promoted_index.length < 2 ^ 32) :
    parseIndexEntry ⟨file, pos⟩ =
      .ok (e, ⟨file, pos + (indexEntryBytes e).length⟩) := by
  unfold indexEntryBytes at hd
  simp only [List.append_assoc] at hd
  have h1 := parseDiskString_of_drop (s := e.key) hd (by norm_num)
    (lt_of_lt_of_le hkey (by norm_num))
  have hd2a := drop_of_drop_append hd
  rw [beEncode_length] at hd2a
  have hd2 := drop_of_drop_append hd2a
  have h2 := parseInt_beEncode_at hd2 hposn (by norm_num)
  have hd3 := drop_of_drop_append hd2
  rw [beEncode_length] at hd3
  have h3 := parseDiskString_of_drop (s := e.promoted_index) hd3 (by norm_num)
    (lt_of_lt_of_le hpi (by norm_num))
  have h1' : parseDiskString 2 ⟨file, pos⟩ = .ok (e.key, ⟨file, pos + 2 + e.key.length⟩) := h1
  unfold parseIndexEntry
  rw [h1']
  simp only [h2, h3]
  simp only [Except.ok.injEq, Prod.mk.injEq, Reader.mk.injEq, indexEntryBytes,
    List.length_append, beEncode_length, true_and]
  omega

theorem readIndexesAux_length :
    ∀ (n : Nat) (r : Reader) (acc res : List IndexEntry),
      readIndexesAux n r acc = .ok res → res.length ≤ acc.length + n := by
  intro n
  induction n with
  | zero =>
    intro r acc res h
    unfold readIndexesAux at h
    simp only [Except.ok.injEq] at h
    subst h
    omega
  | succ n ih =>
    intro r acc res h
    unfold readIndexesAux at h
    rcases hp : parseIndexEntry r with ⟨err, r'⟩ | ⟨ent, r'⟩ <;> simp only [hp] at h
    · cases err with
      | underfullBuffer g ex =>
        dsimp only at h
        by_cases he : r'.eof
        · rw [if_pos he] at h
          simp only [Except.ok.injEq] at h
          subst h
          omega
        · rw [if_neg he] at h
          exact Except.noConfusion h
      | overflow => exact Except.noConfusion h
      | malformed m => exact Except.noConfusion h
      | outOfRange => exact Except.noConfusion h
      | systemError => exact Except.noConfusion h
    · have := ih r' (acc ++ [ent]) res h
      simp only [List.length_append, List.length_cons, List.length_nil] at this
      omega

theorem readIndexesAux_encodes :
    ∀ (es : List IndexEntry) (n : Nat) (acc : List IndexEntry) (file : List Nat) (pos : Nat),
      (∀ e ∈ es, e.key.length < 2 ^ 16 ∧ e.position < 2 ^ 64 ∧
        e.promoted_index.length < 2 ^ 32) →
      file.drop pos = es.flatMap indexEntryBytes →
      es.length ≤ n →
      readIndexesAux n ⟨file, pos⟩ acc = .ok (acc ++ es) := by
  intro es
  induction es with
  | nil =>
    intro n acc file pos _ hd _
    cases n with
    | zero =>
      unfold readIndexesAux
      simp
    | succ n =>
      unfold readIndexesAux
      rw [parseIndexEntry_eof (by simpa using hd)]
      simp [Reader.eof]
  | cons e tl ih =>
    intro n acc file pos hval hd hn
    cases n with
    | zero => simp at hn
    | succ n =>
      unfold readIndexesAux
      rw [List.flatMap_cons] at hd
      have hd' : file.drop pos = indexEntryBytes e ++ tl.flatMap indexEntryBytes := hd
      have he := hval e (List.mem_cons_self e tl)
      rw [parseIndexEntry_of_drop hd' he.1 he.2.1 he.2.2]
      dsimp only
      have hd2 : file.drop (pos + (indexEntryBytes e).length) = tl.flatMap indexEntryBytes :=
        drop_of_drop_append hd'
      rw [ih n (acc ++ [e]) file _ (fun x hx => hval x (List.mem_cons_of_mem _ hx)) hd2
        (by simp at hn; omega)]
      simp

/-- C5: `read_indexes(pos, quantity)` returns at most `quantity` index entries
parsed consecutively from position `pos`, and it tolerates end-of-file
mid-enumeration: on a file whose bytes from `pos` hold exactly `k ≤ quantity`
full entries and then end, the enumeration discards the tentatively reserved
entry that failed with `UnderfullBuffer` at end-of-file and returns exactly
those `k` entries without error (a mismatch away from end-of-file re-raises,
per the final alternative of the loop in `readIndexesAux`). -/
theorem read_indexes_eof_tolerant :
    (∀ (file : List Nat) (pos q : Nat) (res : List IndexEntry),
      readIndexes file pos q = .ok res → res.length ≤ q) ∧
    (∀ (es : List IndexEntry) (file : List Nat) (pos q : Nat),
      (∀ e ∈ es, e.key.length < 2 ^ 16 ∧ e.position < 2 ^ 64 ∧
        e.promoted_index.length < 2 ^ 32) →
      file.drop pos = es.flatMap indexEntryBytes →
      es.length ≤ q →
      readIndexes file pos q = .ok es) := by
  constructor
  · intro file pos q res h
    have := readIndexesAux_length q (Reader.seek ⟨file, 0⟩ pos) [] res h
    simpa using this
  · intro es file pos q hval hd hq
    unfold readIndexes Reader.seek
    have := readIndexesAux_encodes es q [] file pos hval hd hq
    simpa using this

/-- Witness for `read_indexes_eof_tolerant`: a file holding exactly 7 full
entries followed by end-of-file yields exactly those 7 entries for
`quantity = 100`, without error. -/
theorem read_indexes_eof_tolerant_witness :
    readIndexes sampleIndexFile 0 100 =
      .ok (List.replicate 7 (⟨[107], 500, []⟩ : IndexEntry)) :=
  read_indexes_eof_tolerant.2 (List.replicate 7 ⟨[107], 500, []⟩) sampleIndexFile 0 100
    (by decide) (by rfl) (by simp)

/-- An empty line is skipped by the TOC fold. -/
theorem tocFold_cons_empty (rest : List (List Char)) (acc : List ComponentType) :
    tocFold ([] :: rest) acc = tocFold rest acc := rfl

/-- The one-step unfolding of the TOC fold on a non-empty list of lines. -/
theorem tocFold_cons (c : List Char) (rest : List (List Char))
    (acc : List ComponentType) :
    tocFold (c :: rest) acc =
      if c = [] then tocFold rest acc
      else
        match reverseMapToc c with
        | some comp => tocFold rest (insertComponent acc comp)
        | none => .error (.malformed ("Unrecognized TOC component: " ++ String.mk c)) :=
  rfl

/-- A non-empty line is looked up in the reverse component map. -/
theorem tocFold_cons_ne {c : List Char} (hc : c ≠ []) (rest : List (List Char))
    (acc : List ComponentType) :
    tocFold (c :: rest) acc =
      match reverseMapToc c with
      | some comp => tocFold rest (insertComponent acc comp)
      | none => .error (.malformed ("Unrecognized TOC component: " ++ String.mk c)) := by
  rw [tocFold_cons, if_neg hc]

/-- Membership in the component set after a `std::set::insert`. -/
theorem mem_insertComponent {l : List ComponentType} {a c : ComponentType} :
    a ∈ insertComponent l c ↔ a ∈ l ∨ a = c := by
  unfold insertComponent
  by_cases h : c ∈ l
  · rw [if_pos h]
    constructor
    · exact Or.inl
    · rintro (ha | rfl)
      · exact ha
      · exact h
  · rw [if_neg h]
    simp [List.mem_append]

/-- A successful reverse-map lookup exhibits the component/suffix pair in
`componentMap`. -/
theorem reverseMapToc_some {v : List Char} {c : ComponentType}
    (h : reverseMapToc v = some c) : (c, v) ∈ componentMap := by
  unfold reverseMapToc at h
  cases hf : componentMap.find? (fun p => p.2 = v) with
  | none => rw [hf] at h; exact Option.noConfusion h
  | some pr =>
    rw [hf] at h
    simp only [Option.map_some'] at h
    have hmem := List.mem_of_find?_eq_some hf
    have hp := List.find?_some hf
    have hv : pr.2 = v := by simpa using hp
    have hpr : pr = (c, v) := by
      cases pr
      simp_all
    rwa [hpr] at hmem

/-- The TOC fold ignores empty lines: it only depends on the non-empty ones. -/
theorem tocFold_filter (lines : List (List Char)) (acc : List ComponentType) :
    tocFold lines acc = tocFold (lines.filter (fun l => l ≠ [])) acc := by
  induction lines generalizing acc with
  | nil => rfl
  | cons c rest ih =>
    by_cases hc : c = []
    · subst hc
      rw [tocFold_cons_empty, List.filter_cons, if_neg (by simp), ih]
    · rw [List.filter_cons, if_pos (by simpa using hc), tocFold_cons_ne hc,
        tocFold_cons_ne hc]
      cases reverseMapToc c with
      | none => rfl
      | some comp => exact ih _

/-- When every line is empty the TOC fold leaves the component set untouched. -/
theorem tocFold_all_empty (lines : List (List Char)) (acc : List ComponentType) :
    (∀ l ∈ lines, l = []) → tocFold lines acc = .ok acc := by
  induction lines with
  | nil => intro _; rfl
  | cons c rest ih =>
    intro h
    have hc := h c (List.mem_cons_self c rest)
    subst hc
    rw [tocFold_cons_empty]
    exact ih (fun l hl => h l (List.mem_cons_of_mem _ hl))

/-- Every component a successful TOC fold produces is either carried in from
the accumulator or reverse-mapped from one of the lines. -/
theorem tocFold_ok_mem (lines : List (List Char)) :
    ∀ (acc comps : List ComponentType), tocFold lines acc = .ok comps →
      ∀ c ∈ comps, c ∈ acc ∨ ∃ l ∈ lines, reverseMapToc l = some c := by
  induction lines with
  | nil =>
    intro acc comps h c hc
    have hac : acc = comps := by simpa [tocFold] using h
    exact Or.inl (hac ▸ hc)
  | cons l0 rest ih =>
    intro acc comps h c hc
    by_cases h0 : l0 = []
    · subst h0
      rw [tocFold_cons_empty] at h
      rcases ih acc comps h c hc with hacc | ⟨l, hl, hm⟩
      · exact Or.inl hacc
      · exact Or.inr ⟨l, List.mem_cons_of_mem _ hl, hm⟩
    · rw [tocFold_cons_ne h0] at h
      cases hm : reverseMapToc l0 with
      | none => rw [hm] at h; exact Except.noConfusion h
      | some comp =>
        rw [hm] at h
        rcases ih _ comps h c hc with hacc | ⟨l, hl, hml⟩
        · rcases mem_insertComponent.mp hacc with hin | rfl
          · exact Or.inl hin
          · exact Or.inr ⟨l0, List.mem_cons_self _ _, hm⟩
        · exact Or.inr ⟨l, List.mem_cons_of_mem _ hl, hml⟩

/-- When some non-empty line is unrecognized, the TOC fold fails with the
`Unrecognized TOC component` message naming (the first) such line, whatever the
accumulated component set. -/
theorem tocFold_first_bad (lines : List (List Char)) :
    (∃ l ∈ lines, l ≠ [] ∧ reverseMapToc l = none) →
    ∃ bad, bad ∈ lines ∧ bad ≠ [] ∧ reverseMapToc bad = none ∧
      ∀ acc, tocFold lines acc =
        .error (.malformed ("Unrecognized TOC component: " ++ String.mk bad)) := by
  induction lines with
  | nil =>
    rintro ⟨l, hl, -⟩
    exact absurd hl (List.not_mem_nil l)
  | cons l0 rest ih =>
    intro hex
    by_cases h0 : l0 = []
    · subst h0
      have hex' : ∃ l ∈ rest, l ≠ [] ∧ reverseMapToc l = none := by
        rcases hex with ⟨l, hl, hprop⟩
        rcases List.mem_cons.mp hl with rfl | hmem
        · exact absurd rfl hprop.1
        · exact ⟨l, hmem, hprop⟩
      rcases ih hex' with ⟨bad, hmem, hne, hnone, hfold⟩
      exact ⟨bad, List.mem_cons_of_mem _ hmem, hne, hnone,
        fun acc => by rw [tocFold_cons_empty]; exact hfold acc⟩
    · cases hm : reverseMapToc l0 with
      | none =>
        exact ⟨l0, List.mem_cons_self _ _, h0, hm,
          fun acc => by rw [tocFold_cons_ne h0, hm]⟩
      | some comp =>
        have hex' : ∃ l ∈ rest, l ≠ [] ∧ reverseMapToc l = none := by
          rcases hex with ⟨l, hl, hprop⟩
          rcases List.mem_cons.mp hl with rfl | hmem
          · have hcontra := hprop.2
            rw [hm] at hcontra
            exact Option.noConfusion hcontra
          · exact ⟨l, hmem, hprop⟩
        rcases ih hex' with ⟨bad, hmem, hne, hnone, hfold⟩
        refine ⟨bad, List.mem_cons_of_mem _ hmem, hne, hnone, fun acc => ?_⟩
        rw [tocFold_cons_ne h0, hm]
        exact hfold _

/-- When every non-empty line is recognized the TOC fold succeeds, keeps the
accumulated components, and records the component of every line. -/
theorem tocFold_recognized (lines : List (List Char)) :
    (∀ l ∈ lines, l ≠ [] → (reverseMapToc l).isSome) →
    ∀ acc, ∃ comps, tocFold lines acc = .ok comps ∧
      (∀ c ∈ acc, c ∈ comps) ∧
      (∀ l ∈ lines, ∀ c, reverseMapToc l = some c → c ∈ comps) := by
  induction lines with
  | nil =>
    intro _ acc
    exact ⟨acc, rfl, fun c hc => hc, fun l hl => absurd hl (List.not_mem_nil l)⟩
  | cons l0 rest ih =>
    intro hrec acc
    by_cases h0 : l0 = []
    · subst h0
      rcases ih (fun l hl => hrec l (List.mem_cons_of_mem _ hl)) acc with
        ⟨comps, hfold, hsub, hmem⟩
      refine ⟨comps, by rw [tocFold_cons_empty]; exact hfold, hsub, ?_⟩
      intro l hl c hc
      rcases List.mem_cons.mp hl with rfl | hmem'
      · have hnone : reverseMapToc [] = none := by decide
        rw [hnone] at hc
        exact Option.noConfusion hc
      · exact hmem l hmem' c hc
    · have hs := hrec l0 (List.mem_cons_self _ _) h0
      cases hm : reverseMapToc l0 with
      | none => rw [hm] at hs; exact absurd hs (by simp)
      | some comp =>
        rcases ih (fun l hl => hrec l (List.mem_cons_of_mem _ hl))
          (insertComponent acc comp) with ⟨comps, hfold, hsub, hmem⟩
        refine ⟨comps, ?_, ?_, ?_⟩
        · rw [tocFold_cons_ne h0, hm]
          exact hfold
        · intro c hc
          exact hsub c (mem_insertComponent.mpr (Or.inl hc))
        · intro l hl c hc
          rcases List.mem_cons.mp hl with rfl | hmem'
          · rw [hm] at hc
            have hcc : comp = c := Option.some.inj hc
            subst hcc
            exact hsub comp (mem_insertComponent.mpr (Or.inr rfl))
          · exact hmem l hmem' c hc

/-- Inversion of a successful `read_toc`: the file is under a page, the fold
succeeded, and the component set is non-empty. -/
theorem readToc_ok_inv {content : List Char} {comps : List ComponentType}
    (h : readToc content = .ok comps) :
    content.length < 4096 ∧ tocFold (splitOn '\n' content) [] = .ok comps ∧
      comps ≠ [] := by
  unfold readToc at h
  by_cases hlen : 4096 ≤ content.length
  · rw [if_pos hlen] at h
    exact Except.noConfusion h
  · rw [if_neg hlen] at h
    cases hf : tocFold (splitOn '\n' content) [] with
    | error e =>
      rw [hf] at h
      exact Except.noConfusion h
    | ok cs =>
      rw [hf] at h
      dsimp only at h
      by_cases hz : cs.length = 0
      · rw [if_pos hz] at h
        exact Except.noConfusion h
      · rw [if_neg hz] at h
        have hcs : cs = comps := by simpa using h
        subst hcs
        refine ⟨by omega, rfl, ?_⟩
        intro hnil
        rw [hnil] at hz
        exact hz rfl

/-- C6: reading the TOC file splits its bytes on LF and tolerates empty lines,
including trailing ones (the fold result depends only on the non-empty lines);
every non-empty line must equal one of the nine known component suffixes: a
successful read maps each produced component back to one of the lines through
`componentMap`, and when every non-empty line is recognized (and at least one
line is non-empty) the read succeeds; a non-empty unrecognized line fails with
`MalformedSSTable` (`Unrecognized TOC component`), an effectively empty
component set fails with `MalformedSSTable` (`Empty TOC`), and a TOC file of
4096 bytes or more is rejected as malformed (`SSTable too big`). -/
theorem toc_validation (content : List Char) :
    (4096 ≤ content.length →
      readToc content =
        .error (.malformed
          ("SSTable too big: " ++ toString content.length ++ " bytes."))) ∧
    (∀ acc, tocFold (splitOn '\n' content) acc =
      tocFold ((splitOn '\n' content).filter (fun l => l ≠ [])) acc) ∧
    (content.length < 4096 → (∀ l ∈ splitOn '\n' content, l = []) →
      readToc content = .error (.malformed "Empty TOC")) ∧
    (∀ comps, readToc content = .ok comps →
      content.length < 4096 ∧ comps ≠ [] ∧
        ∀ c ∈ comps, ∃ l ∈ splitOn '\n' content, (c, l) ∈ componentMap) ∧
    (content.length < 4096 →
      (∃ l ∈ splitOn '\n' content, l ≠ [] ∧ reverseMapToc l = none) →
      ∃ bad, bad ∈ splitOn '\n' content ∧ bad ≠ [] ∧ reverseMapToc bad = none ∧
        readToc content =
          .error (.malformed ("Unrecognized TOC component: " ++ String.mk bad))) ∧
    (content.length < 4096 →
      (∀ l ∈ splitOn '\n' content, l ≠ [] → (reverseMapToc l).isSome) →
      (∃ l ∈ splitOn '\n' content, l ≠ []) →
      ∃ comps, readToc content = .ok comps) := by
  refine ⟨?_, ?_, ?_, ?_, ?_, ?_⟩
  · intro h
    unfold readToc
    rw [if_pos h]
  · intro acc
    exact tocFold_filter _ acc
  · intro hlen hall
    have hfold := tocFold_all_empty (splitOn '\n' content) [] hall
    unfold readToc
    rw [if_neg (by omega)]
    simp only [hfold]
    rfl
  · intro comps h
    obtain ⟨hlen, hfold, hne⟩ := readToc_ok_inv h
    refine ⟨hlen, hne, ?_⟩
    intro c hc
    rcases tocFold_ok_mem _ _ _ hfold c hc with habs | ⟨l, hl, hm⟩
    · exact absurd habs (List.not_mem_nil c)
    · exact ⟨l, hl, reverseMapToc_some hm⟩
  · intro hlen hex
    rcases tocFold_first_bad _ hex with ⟨bad, hmem, hne, hnone, hfold⟩
    refine ⟨bad, hmem, hne, hnone, ?_⟩
    unfold readToc
    rw [if_neg (by omega)]
    simp only [hfold]
  · intro hlen hrec hex
    rcases tocFold_recognized _ hrec [] with ⟨comps, hfold, _, hmem⟩
    rcases hex with ⟨l, hl, hlne⟩
    have hs := hrec l hl hlne
    rcases Option.isSome_iff_exists.mp hs with ⟨c, hc⟩
    have hcin := hmem l hl c hc
    have hpos : comps ≠ [] := List.ne_nil_of_mem hcin
    refine ⟨comps, ?_⟩
    unfold readToc
    rw [if_neg (by omega)]
    simp only [hfold]
    rw [if_neg (by simpa [List.length_eq_zero] using hpos)]

/-- Witness for `toc_validation`: an all-empty TOC file fails with `Empty TOC`,
a TOC file carrying the unknown line `Bogus.db` fails with
`Unrecognized TOC component`, and a TOC file listing three known components
(with a trailing empty line) is read successfully. -/
theorem toc_validation_witness :
    readToc "\n\n\n".data = .error (.malformed "Empty TOC") ∧
    (∃ bad, bad ∈ splitOn '\n' "Data.db\nBogus.db\n".data ∧ bad ≠ [] ∧
      reverseMapToc bad = none ∧
      readToc "Data.db\nBogus.db\n".data =
        .error (.malformed ("Unrecognized TOC component: " ++ String.mk bad))) ∧
    (∃ comps, readToc "Data.db\nIndex.db\nTOC.txt\n\n".data = .ok comps) :=
  ⟨(toc_validation _).2.2.1 (by decide) (by decide),
   (toc_validation _).2.2.2.2.1 (by decide) (by decide),
   (toc_validation _).2.2.2.2.2 (by decide) (by decide) (by decide)⟩

/-- C9: `load` runs its steps in the strict chain order TOC, statistics,
compression (only when the `CompressionInfo` component is listed in the TOC),
filter (when the `Filter` component is listed; the filter/summary readers are
modelled from the spec), summary, opening the index and data files, and finally
handing the data-file size to the compression metadata: a successful load's
trace is exactly the chain order restricted to the applicable steps, any
failure aborts the chain — the completed-step trace is an order-preserving
truncation of the chain that never reaches the data-file opening, so the table
stays unloaded — and in particular a missing TOC file, a malformed TOC, or a
missing statistics file abort the load with nothing (respectively only the TOC
step) completed. -/
theorem load_strict_order (fs : FS) :
    (∀ t tr, load fs = .ok (t, tr) →
      tr = [.toc, .statistics] ++
        (if ComponentType.CompressionInfo ∈ t.components then [.compression]
         else []) ++
        (if ComponentType.Filter ∈ t.components then [.filterStep] else []) ++
        [.summaryStep, .openData] ++
        (if ComponentType.CompressionInfo ∈ t.components then [.updateCompression]
         else [])) ∧
    (∀ e tr, load fs = .error (e, tr) →
      List.Sublist tr loadOrder ∧ LoadStep.openData ∉ tr ∧
        LoadStep.updateCompression ∉ tr) ∧
    (fs.toc = none → load fs = .error (.malformed "file not found", [])) ∧
    (∀ c e, fs.toc = some c → readToc c = .error e → load fs = .error (e, [])) ∧
    (∀ c comps, fs.toc = some c → readToc c = .ok comps → fs.stats = none →
      load fs = .error (.malformed "file not found", [.toc])) := by
  have master :
      (∀ t tr, load fs = .ok (t, tr) →
        tr = [.toc, .statistics] ++
          (if ComponentType.CompressionInfo ∈ t.components then [.compression]
           else []) ++
          (if ComponentType.Filter ∈ t.components then [.filterStep] else []) ++
          [.summaryStep, .openData] ++
          (if ComponentType.CompressionInfo ∈ t.components then
            [.updateCompression] else [])) ∧
      (∀ e tr, load fs = .error (e, tr) →
        List.Sublist tr loadOrder ∧ LoadStep.openData ∉ tr ∧
          LoadStep.updateCompression ∉ tr) := by
    unfold load
    cases htoc : fs.toc with
    | none =>
      refine ⟨fun t tr h => Except.noConfusion h, fun e tr h => ?_⟩
      simp only [Except.error.injEq, Prod.mk.injEq] at h
      obtain ⟨-, htr⟩ := h
      subst htr
      decide
    | some c =>
      dsimp only
      cases hrt : readToc c with
      | error e0 =>
        refine ⟨fun t tr h => Except.noConfusion h, fun e tr h => ?_⟩
        simp only [Except.error.injEq, Prod.mk.injEq] at h
        obtain ⟨-, htr⟩ := h
        subst htr
        decide
      | ok comps =>
        dsimp only
        cases hst : fs.stats with
        | none =>
          refine ⟨fun t tr h => Except.noConfusion h, fun e tr h => ?_⟩
          simp only [Except.error.injEq, Prod.mk.injEq] at h
          obtain ⟨-, htr⟩ := h
          subst htr
          decide
        | some sf =>
          dsimp only
          cases hps : parseStatistics ⟨sf, 0⟩ with
          | error ep =>
            obtain ⟨e0, r0⟩ := ep
            dsimp only
            refine ⟨fun t tr h => Except.noConfusion h, fun e tr h => ?_⟩
            simp only [Except.error.injEq, Prod.mk.injEq] at h
            obtain ⟨-, htr⟩ := h
            subst htr
            decide
          | ok sp =>
            obtain ⟨st, lg⟩ := sp
            dsimp only
            by_cases hci : ComponentType.CompressionInfo ∈ comps
            · simp only [if_pos hci]
              cases hrc : readSimple parseCompression fs.compressionInfo with
              | error e0 =>
                simp only [Except.map]
                refine ⟨fun t tr h => Except.noConfusion h, fun e tr h => ?_⟩
                simp only [Except.error.injEq, Prod.mk.injEq] at h
                obtain ⟨-, htr⟩ := h
                subst htr
                decide
              | ok cp =>
                simp only [Except.map]
                by_cases hfi : ComponentType.Filter ∈ comps
                · simp only [if_pos hfi]
                  cases hrf : readSimple parseFilter fs.filterFile with
                  | error e0 =>
                    simp only [Except.map]
                    refine ⟨fun t tr h => Except.noConfusion h,
                      fun e tr h => ?_⟩
                    simp only [Except.error.injEq, Prod.mk.injEq] at h
                    obtain ⟨-, htr⟩ := h
                    subst htr
                    decide
                  | ok fp =>
                    simp only [Except.map]
                    cases hrs : readSimple parseSummary fs.summaryFile with
                    | error e0 =>
                      refine ⟨fun t tr h => Except.noConfusion h,
                        fun e tr h => ?_⟩
                      simp only [Except.error.injEq, Prod.mk.injEq] at h
                      obtain ⟨-, htr⟩ := h
                      subst htr
                      decide
                    | ok sm =>
                      dsimp only
                      cases hif : fs.indexFile with
                      | none =>
                        refine ⟨fun t tr h => Except.noConfusion h,
                          fun e tr h => ?_⟩
                        simp only [Except.error.injEq, Prod.mk.injEq] at h
                        obtain ⟨-, htr⟩ := h
                        subst htr
                        decide
                      | some idx =>
                        cases hdf : fs.dataFile with
                        | none =>
                          refine ⟨fun t tr h => Except.noConfusion h,
                            fun e tr h => ?_⟩
                          simp only [Except.error.injEq, Prod.mk.injEq] at h
                          obtain ⟨-, htr⟩ := h
                          subst htr
                          decide
                        | some d =>
                          dsimp only
                          refine ⟨fun t tr h => ?_, fun e tr h =>
                            Except.noConfusion h⟩
                          simp only [Except.ok.injEq, Prod.mk.injEq] at h
                          obtain ⟨ht, htr⟩ := h
                          subst ht
                          subst htr
                          simp [hci, hfi]
                · simp only [if_neg hfi]
                  cases hrs : readSimple parseSummary fs.summaryFile with
                  | error e0 =>
                    refine ⟨fun t tr h => Except.noConfusion h,
                      fun e tr h => ?_⟩
                    simp only [Except.error.injEq, Prod.mk.injEq] at h
                    obtain ⟨-, htr⟩ := h
                    subst htr
                    decide
                  | ok sm =>
                    dsimp only
                    cases hif : fs.indexFile with
                    | none =>
                      refine ⟨fun t tr h => Except.noConfusion h,
                        fun e tr h => ?_⟩
                      simp only [Except.error.injEq, Prod.mk.injEq] at h
                      obtain ⟨-, htr⟩ := h
                      subst htr
                      decide
                    | some idx =>
                      cases hdf : fs.dataFile with
                      | none =>
                        refine ⟨fun t tr h => Except.noConfusion h,
                          fun e tr h => ?_⟩
                        simp only [Except.error.injEq, Prod.mk.injEq] at h
                        obtain ⟨-, htr⟩ := h
                        subst htr
                        decide
                      | some d =>
                        dsimp only
                        refine ⟨fun t tr h => ?_, fun e tr h =>
                          Except.noConfusion h⟩
                        simp only [Except.ok.injEq, Prod.mk.injEq] at h
                        obtain ⟨ht, htr⟩ := h
                        subst ht
                        subst htr
                        simp [hci, hfi]
            · simp only [if_neg hci]
              by_cases hfi : ComponentType.Filter ∈ comps
              · simp only [if_pos hfi]
                cases hrf : readSimple parseFilter fs.filterFile with
                | error e0 =>
                  simp only [Except.map]
                  refine ⟨fun t tr h => Except.noConfusion h, fun e tr h => ?_⟩
                  simp only [Except.error.injEq, Prod.mk.injEq] at h
                  obtain ⟨-, htr⟩ := h
                  subst htr
                  decide
                | ok fp =>
                  simp only [Except.map]
                  cases hrs : readSimple parseSummary fs.summaryFile with
                  | error e0 =>
                    refine ⟨fun t tr h => Except.noConfusion h,
                      fun e tr h => ?_⟩
                    simp only [Except.error.injEq, Prod.mk.injEq] at h
                    obtain ⟨-, htr⟩ := h
                    subst htr
                    decide
                  | ok sm =>
                    dsimp only
                    cases hif : fs.indexFile with
                    | none =>
                      refine ⟨fun t tr h => Except.noConfusion h,
                        fun e tr h => ?_⟩
                      simp only [Except.error.injEq, Prod.mk.injEq] at h
                      obtain ⟨-, htr⟩ := h
                      subst htr
                      decide
                    | some idx =>
                      cases hdf : fs.dataFile with
                      | none =>
                        refine ⟨fun t tr h => Except.noConfusion h,
                          fun e tr h => ?_⟩
                        simp only [Except.error.injEq, Prod.mk.injEq] at h
                        obtain ⟨-, htr⟩ := h
                        subst htr
                        decide
                      | some d =>
                        dsimp only
                        refine ⟨fun t tr h => ?_, fun e tr h =>
                          Except.noConfusion h⟩
                        simp only [Except.ok.injEq, Prod.mk.injEq] at h
                        obtain ⟨ht, htr⟩ := h
                        subst ht
                        subst htr
                        simp [hci, hfi]
              · simp only [if_neg hfi]
                cases hrs : readSimple parseSummary fs.summaryFile with
                | error e0 =>
                  refine ⟨fun t tr h => Except.noConfusion h, fun e tr h => ?_⟩
                  simp only [Except.error.injEq, Prod.mk.injEq] at h
                  obtain ⟨-, htr⟩ := h
                  subst htr
                  decide
                | ok sm =>
                  dsimp only
                  cases hif : fs.indexFile with
                  | none =>
                    refine ⟨fun t tr h => Except.noConfusion h,
                      fun e tr h => ?_⟩
                    simp only [Except.error.injEq, Prod.mk.injEq] at h
                    obtain ⟨-, htr⟩ := h
                    subst htr
                    decide
                  | some idx =>
                    cases hdf : fs.dataFile with
                    | none =>
                      refine ⟨fun t tr h => Except.noConfusion h,
                        fun e tr h => ?_⟩
                      simp only [Except.error.injEq, Prod.mk.injEq] at h
                      obtain ⟨-, htr⟩ := h
                      subst htr
                      decide
                    | some d =>
                      dsimp only
                      refine ⟨fun t tr h => ?_, fun e tr h =>
                        Except.noConfusion h⟩
                      simp only [Except.ok.injEq, Prod.mk.injEq] at h
                      obtain ⟨ht, htr⟩ := h
                      subst ht
                      subst htr
                      simp [hci, hfi]
  refine ⟨master.1, master.2, ?_, ?_, ?_⟩
  · intro h
    unfold load
    rw [h]
  · intro c e hc he
    unfold load
    simp only [hc, he]
  · intro c comps hc htoc hstats
    unfold load
    simp only [hc, htoc, hstats]

/-- Witness for `load_strict_order`: loading the sample file set (whose TOC
lists six components, without compression) succeeds, and its completed-step
trace is exactly the chain order restricted to the applicable steps — TOC,
statistics, filter, summary, open-data, with no compression steps. -/
theorem load_strict_order_witness :
    ∃ t tr, load sampleFS = .ok (t, tr) ∧
      tr = [.toc, .statistics] ++
        (if ComponentType.CompressionInfo ∈ t.components then [.compression]
         else []) ++
        (if ComponentType.Filter ∈ t.components then [.filterStep] else []) ++
        [.summaryStep, .openData] ++
        (if ComponentType.CompressionInfo ∈ t.components then [.updateCompression]
         else []) ∧
      tr = [.toc, .statistics, .filterStep, .summaryStep, .openData] := by
  have h : load sampleFS =
      .ok (⟨[.Data, .Index, .TOC, .Statistics, .Summary, .Filter],
            ⟨[], []⟩, none, some ⟨3, []⟩, ⟨⟨0, 0, 0, 0, 0⟩, [], [], [], []⟩, 0⟩,
           [.toc, .statistics, .filterStep, .summaryStep, .openData]) := by
    rfl
  exact ⟨_, _, h, (load_strict_order sampleFS).1 _ _ h, rfl⟩
